import Mathlib

/-!
Shallow embedding of the chunked-storage partial layer applier
(`vendor/github.com/containers/storage/pkg/chunked/storage_linux.go`).

Go machine integers are modelled as `Nat` / `Int` with explicit wrapping at
64 bits where the code performs `uint64` / `int64` arithmetic.  I/O-effectful
Go functions are modelled as pure state transformers on explicit state
records; fallible code returns `Except` / `Option`.
-/

namespace ChunkedStorage

/-- Wrap a natural number to a `uint64` value, as Go unsigned arithmetic does. -/
def u64 (n : Nat) : Nat := n % 2 ^ 64

/-- Wrap an integer to a signed `int64` value (two's complement), as Go
signed arithmetic does. -/
def i64 (z : Int) : Int := (z + 2 ^ 63) % 2 ^ 64 - 2 ^ 63

/-- Reinterpret a `uint64` value as Go's `int64` (the conversion performed by
`int(x)` on a `uint64` in the source, 64-bit platform). -/
def toI64 (n : Nat) : Int := i64 (n : Int)

/-- Reinterpret an `int64` value as Go's `uint64` (the conversion `uint64(gap)`
in the source). -/
def toU64 (z : Int) : Nat := (z % 2 ^ 64).toNat

/-- Go `uint64` subtraction `a - b` (wraps modulo `2^64`). -/
def u64sub (a b : Nat) : Nat := (u64 a + (2 ^ 64 - u64 b)) % 2 ^ 64

/-- Entry types of TOC entries (`TypeReg`, `TypeChunk`, ... constants of the
`internal` package; the exact string values are irrelevant to the logic). -/
inductive EntryType where
  | reg
  | chunk
  | dir
  | symlink
  | hardlink
  | char
  | block
  | fifo
deriving DecidableEq, Repr

/-- The scalar fields of `internal.FileMetadata` used by this file.  The Go
struct field `Type` is called `typ` here (`Type` is reserved in Lean).  The
recursive `Chunks` field lives in the wrapper `FileMetadata` below. -/
structure FMBase where
  typ : EntryType
  Name : String
  Size : Int
  Offset : Int
  EndOffset : Int
  ChunkSize : Int
  Digest : String
  UID : Int
  GID : Int
  Mode : Int
  Xattrs : List (String × String)
deriving DecidableEq, Repr

/-- `internal.FileMetadata`: the scalar fields plus the recursive
`Chunks []*FileMetadata` list (pointer copies in Go are fresh values, so a
plain value list is a faithful model). -/
inductive FileMetadata where
  | mk (base : FMBase) (Chunks : List FileMetadata)
deriving Repr

def FileMetadata.base : FileMetadata → FMBase
  | .mk b _ => b

def FileMetadata.Chunks : FileMetadata → List FileMetadata
  | .mk _ c => c

def FileMetadata.typ (e : FileMetadata) : EntryType := e.base.typ

def FileMetadata.Name (e : FileMetadata) : String := e.base.Name

def FileMetadata.Size (e : FileMetadata) : Int := e.base.Size

def FileMetadata.Offset (e : FileMetadata) : Int := e.base.Offset

def FileMetadata.EndOffset (e : FileMetadata) : Int := e.base.EndOffset

def FileMetadata.withChunks (e : FileMetadata) (cs : List FileMetadata) : FileMetadata :=
  .mk e.base cs

def FileMetadata.withEndOffset (e : FileMetadata) (v : Int) : FileMetadata :=
  .mk { e.base with EndOffset := v } e.Chunks

/-- Set a chunk's `EndOffset` to `v` and recompute `Size := EndOffset - Offset`
(`int64` arithmetic), as the backward pass of `mergeTocEntries` does. -/
def FileMetadata.withEndAndSize (e : FileMetadata) (v : Int) : FileMetadata :=
  .mk { e.base with EndOffset := v, Size := i64 (v - e.base.Offset) } e.Chunks

/-- Landmark file names of the eStargz format (`estargz.PrefetchLandmark`,
`estargz.NoPrefetchLandmark`, `estargz.TOCTarName`, from the vendored estargz
dependency). -/
def estargzPrefetchLandmark : String := ".prefetch.landmark"

def estargzNoPrefetchLandmark : String := ".no.prefetch.landmark"

def estargzTOCTarName : String := "stargz.index.json"

/-- `compressedFileType` constants. -/
inductive CompressedFileType where
  | zstdChunked
  | estargz
  | noCompression
  | hole
deriving DecidableEq, Repr

/-- `mustSkipFile`: ignore the metadata files for the estargz format. -/
def mustSkipFile (fileType : CompressedFileType) (e : FileMetadata) : Bool :=
  if fileType ≠ .estargz then false
  else if e.Name = estargzPrefetchLandmark then true
  else if e.Name = estargzNoPrefetchLandmark then true
  else if e.Name = estargzTOCTarName then true
  else false

/-- The forward loop of `mergeTocEntries`: skip estargz metadata entries,
reject a top-level chunk entry, and let each regular-file entry absorb the run
of chunk entries that immediately follows it (`countNextChunks` is the
`takeWhile` below).  Chunk `j = 0` of a regular file is a copy of the entry
itself; `EndOffset` is assigned from the last absorbed entry.  The running
`totalFilesSize` accumulates `e.Size` (`int64`) of every top-level entry. -/
def mergeTop (fileType : CompressedFileType) :
    List FileMetadata → Except String (List FileMetadata × Int)
  | [] => .ok ([], 0)
  | e :: rest =>
    if mustSkipFile fileType e then mergeTop fileType rest
    else if e.typ = .chunk then .error "chunk type without a regular file"
    else if e.typ = .reg then
      let cs := rest.takeWhile (fun c => c.typ = .chunk)
      let chunkRun := e :: cs
      let merged := (e.withChunks chunkRun).withEndOffset ((chunkRun.getLast?).getD e).EndOffset
      match mergeTop fileType (rest.drop cs.length) with
      | .error msg => .error msg
      | .ok (l, t) => .ok (merged :: l, i64 (t + e.Size))
    else
      match mergeTop fileType rest with
      | .error msg => .error msg
      | .ok (l, t) => .ok (e :: l, i64 (t + e.Size))
termination_by l => l.length
decreasing_by
  all_goals first
    | (simp [List.length_drop]; omega)
    | simp

/-- The inner backward walk of `mergeTocEntries` over one entry's chunk list:
each chunk's `EndOffset` becomes the following chunk's `Offset` (the entry's
`EndOffset` for the last chunk) and its `Size` is recomputed. -/
def chunkFix (entryEnd : Int) : List FileMetadata → List FileMetadata
  | [] => []
  | [c] => [c.withEndAndSize entryEnd]
  | c :: c2 :: cs => c.withEndAndSize c2.Offset :: chunkFix entryEnd (c2 :: cs)

/-- The backward pass of `mergeTocEntries`, walking the merged entries from the
last to the first.  Returns the rewritten list together with the running
`lastOffset` value that would be seen by an entry placed in front of the list;
`tocOffset` is its initial value (at the end of the list). -/
def fixAux (tocOffset : Int) : List FileMetadata → List FileMetadata × Int
  | [] => ([], tocOffset)
  | e :: rest =>
    let r := fixAux tocOffset rest
    let e1 := if e.EndOffset = 0 then e.withEndOffset r.2 else e
    let lastOffset := if e.Offset ≠ 0 then e.Offset else r.2
    let e2 := e1.withChunks (chunkFix e1.EndOffset e1.Chunks)
    (e2 :: r.1, lastOffset)

/-- `(c *chunkedDiffer) mergeTocEntries`, with the `c.tocOffset` field passed
explicitly.  Returns the merged entries and the total uncompressed size. -/
def mergeTocEntries (fileType : CompressedFileType) (tocOffset : Int)
    (entries : List FileMetadata) : Except String (List FileMetadata × Int) :=
  match mergeTop fileType entries with
  | .error msg => .error msg
  | .ok (l, t) => .ok ((fixAux tocOffset l).1, t)

/-- The pairwise chunk-placement discipline of the TOC entry list: every
non-skipped chunk-continuation entry is immediately preceded by a
regular-file entry or by another chunk entry (one of the same run). -/
def chunkPairsOk (fileType : CompressedFileType) : List FileMetadata → Bool
  | [] => true
  | [_] => true
  | a :: b :: rest =>
    (!(b.typ = .chunk && !(mustSkipFile fileType b)) ||
      (a.typ = .reg || a.typ = .chunk)) &&
    chunkPairsOk fileType (b :: rest)

/-- Chunk placement over the whole list: the pairwise discipline, and the
first entry is not a non-skipped chunk continuation (it has no
predecessor). -/
def chunkPlacementOk (fileType : CompressedFileType) (l : List FileMetadata) : Bool :=
  (match l with
    | [] => true
    | h :: _ => !(h.typ = .chunk && !(mustSkipFile fileType h))) &&
  chunkPairsOk fileType l

/-- The merge-invariant projection of a chunk: its entry type and name
(the backward pass rewrites only offsets and sizes). -/
def chunkShape (c : FileMetadata) : EntryType × String := (c.typ, c.Name)

/-- The projection of an entry preserved by the backward pass: type, name,
size, and the shapes of its chunks. -/
def entryShape (e : FileMetadata) : EntryType × String × Int × List (EntryType × String) :=
  (e.typ, e.Name, e.Size, e.Chunks.map chunkShape)

/-- Forget an entry's chunk list. -/
def stripChunks (e : FileMetadata) : FileMetadata := e.withChunks []

/-- What a second merge does to an already-merged entry: a regular file's
chunk list is rebuilt as the single chunk `[e]` (a copy of the entry
itself); other entries pass through. -/
def regRechunk (e : FileMetadata) : FileMetadata :=
  if e.typ = .reg then e.withChunks [e] else e

/-- The running `totalFilesSize` over a merged entry list (`int64`
accumulation, innermost entry first as in the recursion of `mergeTop`). -/
def sizeTotal : List FileMetadata → Int
  | [] => 0
  | e :: l => i64 (sizeTotal l + e.Size)

def isOkE (r : Except String (List FileMetadata × Int)) : Bool :=
  match r with
  | .ok _ => true
  | .error _ => false

def mergedListOf (r : Except String (List FileMetadata × Int)) : List FileMetadata :=
  match r with
  | .ok (l, _) => l
  | .error _ => []

def mergedTotalOf (r : Except String (List FileMetadata × Int)) : Int :=
  match r with
  | .ok (_, t) => t
  | .error _ => -1

/-- The chunk count of the first entry, used to tell two merge results
apart. -/
def headChunksCount (l : List FileMetadata) : Option Nat :=
  l.head?.map (fun e => e.Chunks.length)

/-! ## Destination files (`destinationFile`, `openDestinationFile`, `Close`)

The open file descriptor is modelled by its byte content and current offset
(bytes as `Nat`).  The running canonical digester is modelled by the list of
bytes fed to it (`hashBytes`, `none` when no hasher was installed); the digest
string it would produce is obtained from an abstract hash function `H`, and
`digest.Parse` from an abstract validity predicate `parseOk` (a valid digest
string parses to itself).  `setFileAttrs`, the fs-verity hooks and the fd
bookkeeping of `Close` are I/O effects outside this model. -/

structure DestinationFile where
  metadata : FMBase
  skipValidation : Bool
  fileContent : List Nat
  fileOffset : Int
  hashBytes : Option (List Nat)
deriving Repr

/-- `openDestinationFile`: a freshly created file (`O_CREAT|O_TRUNC|O_EXCL`,
so empty content at offset 0); with validation enabled it installs a digester
and a `MultiWriter(file, hash)`, with `skipValidation` it writes to the file
only. -/
def openDestinationFile (metadata : FMBase) (skipValidation : Bool) : DestinationFile :=
  { metadata := metadata
    skipValidation := skipValidation
    fileContent := []
    fileOffset := 0
    hashBytes := if skipValidation then none else some [] }

/-- Writing decompressed bytes through `destFile.to`: the bytes are appended to
the file at its current offset and, when a hasher is installed, fed to it as
well (`io.MultiWriter(file, hash)`). -/
def DestinationFile.write (d : DestinationFile) (bs : List Nat) : DestinationFile :=
  { d with
    fileContent := d.fileContent ++ bs
    fileOffset := d.fileOffset + bs.length
    hashBytes := d.hashBytes.map (· ++ bs) }

/-- Outcome of `destinationFile.Close`.  `checksumMismatch` carries the file
path, the expected manifest digest and the observed digest, in the order of
the Go error message `checksum mismatch for path (got observed instead of
expected)`. -/
inductive CloseResult where
  | ok
  | parseError
  | checksumMismatch (path : String) (expected : String) (observed : String)
deriving DecidableEq, Repr

/-- `destinationFile.Close`, validation part: when the file was not
pre-declared trusted, parse the manifest digest and compare it with the
digester's digest of the written bytes.  `H` is the canonical digest function
and `parseOk` the domain of `digest.Parse`. -/
def DestinationFile.close (H : List Nat → String) (parseOk : String → Bool)
    (d : DestinationFile) : CloseResult :=
  if d.skipValidation then .ok
  else if parseOk d.metadata.Digest = false then .parseError
  else if H (d.hashBytes.getD []) ≠ d.metadata.Digest then
    .checksumMismatch d.metadata.Name d.metadata.Digest (H (d.hashBytes.getD []))
  else .ok

/-! ## Hole writing (`hashHole`, `appendHole`, the `fileTypeHole` case of
`appendCompressedStreamToFile`) -/

/-- The bytes `hashHole` feeds to the hasher: `size` zeros written in
chunks of at most `bufLen` (= `len(copyBuffer)`) bytes.  A non-positive size
writes nothing.  (With `bufLen = 0` and a positive size the Go loop would not
terminate; the model returns `[]` there, and all results below assume
`0 < bufLen`, which holds for the code's 2 MiB buffer.) -/
def hashHoleBytesAux (bufLen : Nat) : Nat → List Nat
  | 0 => []
  | n + 1 =>
    if bufLen = 0 then []
    else
      List.replicate (min bufLen (n + 1)) 0 ++ hashHoleBytesAux bufLen (n + 1 - min bufLen (n + 1))
termination_by n => n
decreasing_by omega

def hashHoleBytes (bufLen : Nat) (size : Int) : List Nat :=
  hashHoleBytesAux bufLen size.toNat

/-- `appendHole`: `lseek(fd, size, SEEK_CUR)` followed by `ftruncate(fd, off)`.
The seek fails (`EINVAL`) on a negative resulting offset.  Truncating extends
the file with zero bytes (or shrinks it) to exactly the new offset. -/
def appendHole (d : DestinationFile) (size : Int) : Option DestinationFile :=
  let off := d.fileOffset + size
  if off < 0 then none
  else some
    { d with
      fileOffset := off
      fileContent :=
        d.fileContent.take off.toNat ++
          List.replicate (off.toNat - d.fileContent.length) 0 }

/-- The `fileTypeHole` case of `appendCompressedStreamToFile`: append a hole of
`size` bytes to the destination file and, when the file has a hasher, feed the
same number of zero bytes through it via `hashHole`. -/
def appendCompressedStreamHole (bufLen : Nat) (d : DestinationFile) (size : Int) :
    Option DestinationFile :=
  (appendHole d size).map fun d1 =>
    { d1 with hashBytes := d1.hashBytes.map (· ++ hashHoleBytes bufLen size) }

/-! ## Missing parts and the request planner (`mergeMissingChunks`) -/

/-- `ImageSourceChunk` (from the chunked package's `storage.go`, not under
`src/`): a byte range of the blob, both fields `uint64`. -/
structure ImageSourceChunk where
  Offset : Nat
  Length : Nat
deriving DecidableEq, Repr

/-- `originFile`: a resolved prior-layer source. -/
structure OriginFile where
  Root : String
  Path : String
  Offset : Int
deriving DecidableEq, Repr

/-- `missingFileChunk`.  The Go field `File *internal.FileMetadata` is an
optional pointer (`none` models the nil pointer of a synthetic gap chunk). -/
structure MissingFileChunk where
  Gap : Int
  Hole : Bool
  File : Option FMBase
  CompressedSize : Int
  UncompressedSize : Int
deriving DecidableEq, Repr

/-- `missingPart`.  `SourceChunk` is a non-nil pointer for every part the
planner builds (see the `mp := missingPart{...}` construction in
`ApplyDiff`), so it is a plain field here. -/
structure MissingPart where
  Hole : Bool
  SourceChunk : ImageSourceChunk
  OriginFile : Option OriginFile
  Chunks : List MissingFileChunk
deriving DecidableEq, Repr

/-- `getGap`: the distance from the end of `prev`'s source range to the start
of `cur`'s, computed in `uint64` and reinterpreted as a signed `int`. -/
def getGap (prev cur : MissingPart) : Int :=
  toI64 (u64sub cur.SourceChunk.Offset (u64 (prev.SourceChunk.Offset + prev.SourceChunk.Length)))

/-- `getCost`: the gap plus the lengths of any `OriginFile`-backed ranges that
would have to be fetched instead of read locally. -/
def getCost (prev cur : MissingPart) : Int :=
  i64 (getGap prev cur +
    (if prev.OriginFile.isSome then toI64 prev.SourceChunk.Length else 0) +
    (if cur.OriginFile.isSome then toI64 cur.SourceChunk.Length else 0))

/-- The name of the file targeted by a part's first chunk, when that chunk
exists and carries a file.  (The Go condition reads `Chunks[0].File.Name` only
after checking `len(Chunks) == 1`.) -/
def chunk0Name (p : MissingPart) : Option String :=
  (p.Chunks.head?.bind (·.File)).map (·.Name)

/-- The merge condition of the first (same-file) pass of
`mergeMissingChunks`: zero gap, neither part `OriginFile`-backed, neither a
hole, both single-chunk, both chunks targeting the same file.  `tail` is the
accumulated predecessor (`missingParts[prevIndex]`), `prevOrig` the original
left neighbour (`missingParts[i-1]`, used for the gap). -/
def sameFileCond (tail prevOrig cur : MissingPart) : Bool :=
  getGap prevOrig cur = 0 &&
  tail.OriginFile.isNone && cur.OriginFile.isNone &&
  !tail.Hole && !cur.Hole &&
  tail.Chunks.length = 1 && cur.Chunks.length = 1 &&
  chunk0Name tail = chunk0Name cur

/-- Replace the head of a list by `f` applied to it. -/
def updateHead (f : α → α) : List α → List α
  | [] => []
  | x :: xs => f x :: xs

/-- The merge action of the first pass: grow the source range by
`uint64(gap) + cur.Length` (the gap is 0 in the merging branch) and add
`cur`'s single chunk's compressed and uncompressed sizes onto the first
chunk (`int64` additions). -/
def mergePart1 (tail prevOrig cur : MissingPart) : MissingPart :=
  let gap := getGap prevOrig cur
  { tail with
    SourceChunk :=
      { tail.SourceChunk with
        Length := u64 (tail.SourceChunk.Length + toU64 gap + cur.SourceChunk.Length) }
    Chunks := updateHead (fun c =>
      { c with
        CompressedSize :=
          i64 (c.CompressedSize + ((cur.Chunks.head?.map (·.CompressedSize)).getD 0))
        UncompressedSize :=
          i64 (c.UncompressedSize + ((cur.Chunks.head?.map (·.UncompressedSize)).getD 0)) })
      tail.Chunks }

/-- The first (same-file) coalescing pass.  `tail` is the last element of the
output built so far, `prevOrig` the original value of the element preceding
`cur` in the input (Go reads the gap from `missingParts[i-1]`, which at that
point still holds its original value). -/
def mergePass1 (tail prevOrig : MissingPart) : List MissingPart → List MissingPart
  | [] => [tail]
  | cur :: rest =>
    if sameFileCond tail prevOrig cur then
      mergePass1 (mergePart1 tail prevOrig cur) cur rest
    else
      tail :: mergePass1 cur cur rest

/-- The merge action of the second (cost-driven) pass: grow the absorber's
source range over the gap and the absorbed range, force it to be a remote
fetch (`Hole = false`, `OriginFile = nil`), and append a synthetic gap chunk
(only for a positive gap) followed by the absorbed part's chunks. -/
def mergePart2 (tail prevOrig cur : MissingPart) : MissingPart :=
  let gap := getGap prevOrig cur
  { tail with
    SourceChunk :=
      { tail.SourceChunk with
        Length := u64 (tail.SourceChunk.Length + toU64 gap + cur.SourceChunk.Length) }
    Hole := false
    OriginFile := none
    Chunks :=
      tail.Chunks ++
        (if 0 < gap then [{ Gap := gap, Hole := false, File := none,
                            CompressedSize := 0, UncompressedSize := 0 }] else []) ++
        cur.Chunks }

/-- The second (cost-driven) coalescing pass: absorb every adjacency whose
cost does not exceed `targetValue`.  As in the first pass, gaps and costs are
read from the original adjacent pair. -/
def mergePass2 (targetValue : Int) (tail prevOrig : MissingPart) :
    List MissingPart → List MissingPart
  | [] => [tail]
  | cur :: rest =>
    if targetValue < getCost prevOrig cur then
      tail :: mergePass2 targetValue cur cur rest
    else
      mergePass2 targetValue (mergePart2 tail prevOrig cur) cur rest

/-- The cost list of the second pass: one cost per adjacency of the
first-pass output. -/
def adjacencyCosts (m1 : List MissingPart) : List Int :=
  (List.zip m1 m1.tail).map fun pq => getCost pq.1 pq.2

/-- The cost threshold of the second pass: sort the adjacency costs
ascending (`sort.Ints`, modelled by insertion sort, which produces the same
unique ascending reordering) and pick the entry at index
`toShrink = min (length - target) (#costs - 1)`. -/
def targetValueOf (target : Nat) (m1 : List MissingPart) : Int :=
  (((adjacencyCosts m1).insertionSort (fun a b => a ≤ b)).get?
    (min (m1.length - target) ((adjacencyCosts m1).length - 1))).getD 0

/-- The second pass applied to the whole first-pass output. -/
def mergePass2Top (target : Nat) : List MissingPart → List MissingPart
  | [] => []
  | q :: qrest => mergePass2 (targetValueOf target (q :: qrest)) q q qrest

/-- `mergeMissingChunks`: the same-file pass, then, only when the result still
exceeds `target`, the cost-driven pass.  (Go indexes `missingParts[0:1]` and
so panics on an empty input; every caller passes a non-empty list, and the
model returns `[]` there.) -/
def mergeMissingChunks (missingParts : List MissingPart) (target : Nat) : List MissingPart :=
  match missingParts with
  | [] => []
  | p :: rest =>
    if (mergePass1 p p rest).length ≤ target then mergePass1 p p rest
    else mergePass2Top target (mergePass1 p p rest)

/-! ## The retry loop of `retrieveMissingFiles`

The blob source (`ImageSourceSeekable.GetBlobAt`) is modelled by a function
from the requested ranges to an optional error: `none` means the request was
accepted (the streaming of the accepted request into destination files is the
business of `storeMissingFiles`, modelled separately above through
`DestinationFile`); the result records the parts list in force when the
request was accepted. -/

inductive BlobError where
  | badRequest
  | other
deriving DecidableEq, Repr

inductive RetrieveResult where
  | accepted (parts : List MissingPart)
  | failed (e : BlobError)
deriving Repr

/-- `calculateChunksToRequest`: the source chunks of the parts that are
neither `OriginFile`-backed nor holes. -/
def calculateChunksToRequest (parts : List MissingPart) : List ImageSourceChunk :=
  parts.filterMap fun c =>
    if c.OriginFile.isNone && !c.Hole then some c.SourceChunk else none

/-- The request loop of `retrieveMissingFiles`, with explicit fuel: ask the
blob source for the missing ranges; on a bad-range rejection with at least 64
missing parts, merge the parts down to half their count and retry, otherwise
give up with the error.  Each retry strictly shrinks the part list
(`mergeMissingChunks_length_lt` below), so any fuel above the list length is
never exhausted (`retrieveLoop_fuel` below) and `retrieveMissingFiles` gives
it `parts.length + 1`. -/
def retrieveLoop (server : List ImageSourceChunk → Option BlobError) :
    Nat → List MissingPart → RetrieveResult
  | 0, _ => .failed .other
  | fuel + 1, parts =>
    match server (calculateChunksToRequest parts) with
    | none => .accepted parts
    | some .badRequest =>
      if parts.length < 64 then .failed .badRequest
      else retrieveLoop server fuel (mergeMissingChunks parts (parts.length / 2))
    | some .other => .failed .other

def retrieveMissingFiles (server : List ImageSourceChunk → Option BlobError)
    (parts : List MissingPart) : RetrieveResult :=
  retrieveLoop server (parts.length + 1) parts

/-! ## Hard-link deduplication predicates -/

/-- `xattrsToIgnore`: extended attributes excluded from the candidate's
attribute map before comparing. -/
def xattrsToIgnore : List String := ["security.selinux"]

/-- `reflect.DeepEqual` on two `map[string]string` values (represented as
association lists built with `mapInsert` below, so keys are unique): equal
key sets with equal values, i.e. equal lookups on every key of either map. -/
def mapsEqual (a b : List (String × String)) : Bool :=
  (a.map Prod.fst ++ b.map Prod.fst).all fun k => a.lookup k == b.lookup k

/-- Go map insertion `m[k] = v`: replace the binding if the key is present,
append it otherwise. -/
def mapInsert (m : List (String × String)) (k v : String) : List (String × String) :=
  if m.any (fun p => p.1 == k) then
    m.map (fun p => if p.1 == k then (k, v) else p)
  else m ++ [(k, v)]

/-- `canDedupMetadataWithHardLink`: same UID, GID, file mode and xattrs. -/
def canDedupMetadataWithHardLink (file otherFile : FMBase) : Bool :=
  if file.UID ≠ otherFile.UID then false
  else if file.GID ≠ otherFile.GID then false
  else if file.Mode ≠ otherFile.Mode then false
  else if ¬ (mapsEqual file.Xattrs otherFile.Xattrs = true) then false
  else true

/-- The xattr map `canDedupFileWithHardLink` builds from the candidate's
listed attributes: every attribute is read and inserted unless its name is in
the ignore list. -/
def buildCandidateXattrs (xs : List (String × String)) : List (String × String) :=
  xs.foldl (fun m p => if p.1 ∈ xattrsToIgnore then m else mapInsert m p.1 p.2) []

/-- `canDedupFileWithHardLink`, given the candidate's stat data (`st.Uid`,
`st.Gid`, `st.Mode`) and its listed xattr name/value pairs (the
`Llistxattr` / `Lgetxattr` results; syscall failures, which make the Go
function return false, are outside the model).  Only the four compared fields
of the synthesized `otherFile` are filled; the rest are Go zero values. -/
def canDedupFileWithHardLink (file : FMBase) (uid gid mode : Int)
    (xs : List (String × String)) : Bool :=
  canDedupMetadataWithHardLink file
    { typ := .reg, Name := "", Size := 0, Offset := 0, EndOffset := 0,
      ChunkSize := 0, Digest := "", UID := uid, GID := gid, Mode := mode,
      Xattrs := buildCandidateXattrs xs }

/-! ## Fixtures used by the concrete instantiations below -/

/-- Apply a sequence of writes to a destination file. -/
def writeAll (d : DestinationFile) (writes : List (List Nat)) : DestinationFile :=
  writes.foldl DestinationFile.write d

/-- A minimal regular-file metadata record. -/
def sampleFMB (name digestStr : String) : FMBase :=
  { typ := .reg, Name := name, Size := 10, Offset := 0, EndOffset := 0,
    ChunkSize := 0, Digest := digestStr, UID := 0, GID := 0, Mode := 0, Xattrs := [] }

/-- A missing-file chunk targeting the named file. -/
def sampleChunk (name : String) : MissingFileChunk :=
  { Gap := 0, Hole := false, File := some (sampleFMB name "d"),
    CompressedSize := 1, UncompressedSize := 2 }

/-- A remote missing part with the given source range, one chunk per name. -/
def samplePart (off len : Nat) (hole : Bool) (names : List String) : MissingPart :=
  { Hole := hole, SourceChunk := { Offset := off, Length := len },
    OriginFile := none, Chunks := names.map sampleChunk }

/-- A blob source that rejects every request as a bad range request. -/
def alwaysBadServer : List ImageSourceChunk → Option BlobError := fun _ => some .badRequest

/-- A minimal base record for TOC-entry fixtures. -/
def exBase (t : EntryType) (name : String) (size offset : Int) : FMBase :=
  { typ := t, Name := name, Size := size, Offset := offset, EndOffset := 0,
    ChunkSize := 0, Digest := "", UID := 0, GID := 0, Mode := 0, Xattrs := [] }

/-- A regular-file TOC entry at offset 100 with size 10. -/
def exR : FileMetadata := .mk (exBase .reg "a" 10 100) []

/-- A chunk-continuation TOC entry at offset 150. -/
def exC : FileMetadata := .mk (exBase .chunk "a" 0 150) []

/-- A directory TOC entry. -/
def exDir : FileMetadata := .mk (exBase .dir "d" 0 0) []

/-- A sample digest function: the decimal length of the byte list. -/
def sampleHash (bs : List Nat) : String := toString bs.length

/-- A sample parse predicate accepting every digest string. -/
def sampleParse : String → Bool := fun _ => true

/-- The end of a part's source byte range, as a `uint64` value. -/
def end64 (p : MissingPart) : Nat :=
  u64 (p.SourceChunk.Offset + p.SourceChunk.Length)

/-- The projection of a missing part that the same-file merge condition reads
from a given part: range start, hole flag, presence of an origin file, chunk
count and first-chunk file name. -/
def mergeProj (p : MissingPart) : Nat × Bool × Bool × Nat × Option String :=
  (p.SourceChunk.Offset, p.Hole, p.OriginFile.isNone, p.Chunks.length, chunk0Name p)

/-- No two adjacent parts of the list satisfy the same-file merge condition
(`sameFileCond a a b` instantiated with the parts themselves: exact zero gap,
same single-chunk file target, neither a hole nor `OriginFile`-backed). -/
def noMergeableAdjacency : List MissingPart → Bool
  | [] => true
  | [_] => true
  | a :: b :: rest => !(sameFileCond a a b) && noMergeableAdjacency (b :: rest)

/-! # Theorems -/

theorem writeAll_state (d : DestinationFile) (ws : List (List Nat)) :
    (writeAll d ws).skipValidation = d.skipValidation ∧
    (writeAll d ws).metadata = d.metadata ∧
    (writeAll d ws).hashBytes = d.hashBytes.map (· ++ ws.flatten) ∧
    (writeAll d ws).fileContent = d.fileContent ++ ws.flatten := by
  induction ws generalizing d with
  | nil =>
    refine ⟨rfl, rfl, ?_, by simp [writeAll]⟩
    cases hb : d.hashBytes <;> simp [writeAll, hb]
  | cons w ws ih =>
    have h : writeAll d (w :: ws) = writeAll (d.write w) ws := rfl
    rw [h]
    have hih := ih (d.write w)
    refine ⟨hih.1, hih.2.1, ?_, ?_⟩
    · rw [hih.2.2.1]
      cases hb : d.hashBytes <;> simp [DestinationFile.write, hb]
    · rw [hih.2.2.2]
      simp [DestinationFile.write]

/-- C1: with validation enabled, the digester of a destination file receives
exactly the bytes written to the file, and `Close` fails with a
digest-mismatch error carrying the path, the expected manifest digest and the
observed digest exactly when the computed digest differs from the manifest
digest; with `skipValidation` no comparison is performed and `Close` never
reports a mismatch, whatever the digests are. -/
theorem destinationFile_close_validation (H : List Nat → String)
    (parseOk : String → Bool) (meta : FMBase) (writes : List (List Nat)) :
    ((writeAll (openDestinationFile meta false) writes).hashBytes = some writes.flatten)
    ∧ (parseOk meta.Digest = true → H writes.flatten ≠ meta.Digest →
        (writeAll (openDestinationFile meta false) writes).close H parseOk =
          .checksumMismatch meta.Name meta.Digest (H writes.flatten))
    ∧ (parseOk meta.Digest = true → H writes.flatten = meta.Digest →
        (writeAll (openDestinationFile meta false) writes).close H parseOk = .ok)
    ∧ ((writeAll (openDestinationFile meta true) writes).close H parseOk = .ok) := by
  have hv := writeAll_state (openDestinationFile meta false) writes
  have ht := writeAll_state (openDestinationFile meta true) writes
  have hbytes : (writeAll (openDestinationFile meta false) writes).hashBytes =
      some writes.flatten := by
    rw [hv.2.2.1]; simp [openDestinationFile]
  refine ⟨hbytes, ?_, ?_, ?_⟩
  · intro hp hne
    rw [DestinationFile.close, hv.1, hbytes, hv.2.1]
    simp [openDestinationFile, hp, hne]
  · intro hp heq
    rw [DestinationFile.close, hv.1, hbytes, hv.2.1]
    simp [openDestinationFile, hp, heq]
  · rw [DestinationFile.close, ht.1]
    simp [openDestinationFile]

theorem destinationFile_close_validation_witness :
    (writeAll (openDestinationFile (sampleFMB "f" "x") false) [[1], [2, 3]]).hashBytes =
      some [1, 2, 3]
    ∧ (writeAll (openDestinationFile (sampleFMB "f" "x") false) [[1], [2, 3]]).close
        sampleHash sampleParse = .checksumMismatch "f" "x" "3"
    ∧ (writeAll (openDestinationFile (sampleFMB "g" "3") true) [[9]]).close
        sampleHash sampleParse = .ok := by
  refine ⟨?_, ?_, ?_⟩
  · simpa using (destinationFile_close_validation sampleHash sampleParse
      (sampleFMB "f" "x") [[1], [2, 3]]).1
  · have h := (destinationFile_close_validation sampleHash sampleParse
      (sampleFMB "f" "x") [[1], [2, 3]]).2.1 (by decide) (by decide)
    simpa [sampleFMB, sampleHash] using h
  · exact (destinationFile_close_validation sampleHash sampleParse
      (sampleFMB "g" "3") [[9]]).2.2.2

theorem hashHoleBytesAux_replicate (bufLen : Nat) (hbuf : 0 < bufLen) (m : Nat) :
    hashHoleBytesAux bufLen m = List.replicate m 0 := by
  induction m using Nat.strong_induction_on with
  | _ m ih =>
    match m with
    | 0 => simp [hashHoleBytesAux]
    | n + 1 =>
      rw [hashHoleBytesAux]
      have hmin : 0 < min bufLen (n + 1) := by omega
      have hrec := ih (n + 1 - min bufLen (n + 1)) (by omega)
      rw [if_neg (by omega), hrec, ← List.replicate_add]
      congr 1
      omega

/-- C4: writing a hole of size `n ≥ 0` to a sequentially written destination
file advances the file offset and the file length by exactly `n`, appends `n`
zero bytes of content, and feeds exactly `n` zero bytes through the hasher
when one is installed; consequently a validated file written entirely through
the hole path records the digest of `n` zero bytes and closes successfully
whenever its manifest digest is the digest the same hasher computed. -/
theorem appendHole_advances (H : List Nat → String) (parseOk : String → Bool)
    (bufLen : Nat) (d : DestinationFile) (meta : FMBase) (n : Int)
    (hbuf : 0 < bufLen) (hn : 0 ≤ n) (hseq : d.fileOffset = d.fileContent.length) :
    (∃ d1, appendCompressedStreamHole bufLen d n = some d1
      ∧ d1.fileOffset = d.fileOffset + n
      ∧ (d1.fileContent.length : Int) = (d.fileContent.length : Int) + n
      ∧ d1.fileContent = d.fileContent ++ List.replicate n.toNat 0
      ∧ d1.hashBytes = d.hashBytes.map (· ++ List.replicate n.toNat 0))
    ∧ (∃ d1, appendCompressedStreamHole bufLen (openDestinationFile meta false) n = some d1
      ∧ d1.hashBytes = some (List.replicate n.toNat 0)
      ∧ d1.fileContent = List.replicate n.toNat 0
      ∧ (parseOk meta.Digest = true → meta.Digest = H (List.replicate n.toNat 0) →
          d1.close H parseOk = .ok)) := by
  have main : ∀ e : DestinationFile, e.fileOffset = e.fileContent.length →
      ∃ d1, appendCompressedStreamHole bufLen e n = some d1
        ∧ d1.fileOffset = e.fileOffset + n
        ∧ (d1.fileContent.length : Int) = (e.fileContent.length : Int) + n
        ∧ d1.fileContent = e.fileContent ++ List.replicate n.toNat 0
        ∧ d1.hashBytes = e.hashBytes.map (· ++ List.replicate n.toNat 0)
        ∧ d1.skipValidation = e.skipValidation
        ∧ d1.metadata = e.metadata := by
    intro e hs
    have hoff : ¬ e.fileOffset + n < 0 := by omega
    have htonat : (e.fileOffset + n).toNat = e.fileContent.length + n.toNat := by omega
    have hstep : appendCompressedStreamHole bufLen e n = some
        { e with
          fileOffset := e.fileOffset + n
          fileContent :=
            e.fileContent.take (e.fileOffset + n).toNat ++
              List.replicate ((e.fileOffset + n).toNat - e.fileContent.length) 0
          hashBytes := e.hashBytes.map (· ++ hashHoleBytes bufLen n) } := by
      rw [appendCompressedStreamHole, appendHole, if_neg hoff]
      rfl
    have hcontent : e.fileContent.take (e.fileOffset + n).toNat ++
        List.replicate ((e.fileOffset + n).toNat - e.fileContent.length) 0 =
        e.fileContent ++ List.replicate n.toNat 0 := by
      rw [htonat, List.take_of_length_le (by omega)]
      congr 1
      congr 1
      omega
    refine ⟨_, hstep, rfl, ?_, ?_, ?_, rfl, rfl⟩
    · simp only [hcontent]
      simp
      omega
    · simpa using hcontent
    · simp only [hashHoleBytes, hashHoleBytesAux_replicate bufLen hbuf]
  refine ⟨?_, ?_⟩
  · obtain ⟨d1, h1, h2, h3, h4, h5, _⟩ := main d hseq
    exact ⟨d1, h1, h2, h3, h4, h5⟩
  · obtain ⟨d1, h1, h2, h3, h4, h5, h6, h7⟩ :=
      main (openDestinationFile meta false) (by simp [openDestinationFile])
    refine ⟨d1, h1, ?_, ?_, ?_⟩
    · rw [h5]; simp [openDestinationFile]
    · rw [h4]; simp [openDestinationFile]
    · intro hp heq
      rw [DestinationFile.close, h6, h7]
      have : H (d1.hashBytes.getD []) = meta.Digest := by
        rw [h5]; simp [openDestinationFile, ← heq]
      simp [openDestinationFile, hp, this]

theorem appendHole_advances_witness :
    ((0:Int) ≤ 5)
    ∧ ((appendCompressedStreamHole 2 (openDestinationFile (sampleFMB "f" "5") false) 5).map
        (fun d1 => (d1.close sampleHash sampleParse, d1.hashBytes)) =
          some (.ok, some (List.replicate 5 0))) := by
  refine ⟨by decide, ?_⟩
  obtain ⟨d1, h1, h2, h3, h4⟩ := (appendHole_advances sampleHash sampleParse 2
    (openDestinationFile (sampleFMB "f" "5") false) (sampleFMB "f" "5") 5
    (by decide) (by decide) (by simp [openDestinationFile])).2
  have hd := h4 (by decide) (by decide)
  rw [h1]
  simp [hd, h2]

theorem buildCandidateXattrs_aux (xs : List (String × String))
    (m : List (String × String))
    (hnd : (xs.map Prod.fst).Nodup)
    (hdis : ∀ p ∈ xs, ∀ q ∈ m, q.1 ≠ p.1) :
    xs.foldl (fun m p => if p.1 ∈ xattrsToIgnore then m else mapInsert m p.1 p.2) m =
      m ++ xs.filter (fun p => decide (p.1 ∉ xattrsToIgnore)) := by
  induction xs generalizing m with
  | nil => simp
  | cons p xs ih =>
    have hnd2 : (xs.map Prod.fst).Nodup := by
      rw [List.map_cons, List.nodup_cons] at hnd
      exact hnd.2
    have hnd1 : p.1 ∉ xs.map Prod.fst := by
      rw [List.map_cons, List.nodup_cons] at hnd
      exact hnd.1
    simp only [List.foldl_cons, List.filter_cons]
    by_cases hig : p.1 ∈ xattrsToIgnore
    · rw [if_pos hig, if_neg (by simp [hig])]
      exact ih m hnd2 fun r hr q hq => hdis r (by simp [hr]) q hq
    · rw [if_neg hig, if_pos (by simp [hig])]
      have hins : mapInsert m p.1 p.2 = m ++ [(p.1, p.2)] := by
        rw [mapInsert, if_neg]
        simp only [List.any_eq_true, beq_iff_eq, not_exists, not_and]
        rintro q hq
        simpa using hdis p (by simp) q hq
      rw [hins, ih (m ++ [(p.1, p.2)]) hnd2 ?_]
      · simp
      · intro r hr q hq
        rcases List.mem_append.mp hq with hq | hq
        · exact hdis r (by simp [hr]) q hq
        · simp only [List.mem_singleton] at hq
          subst hq
          intro hc
          exact hnd1 (by exact ⟨r, hr, hc.symm⟩ |> List.mem_map.mpr)

/-- C7: a candidate is accepted for hard-link deduplication exactly when its
uid, gid and mode equal the TOC entry's and its xattr map, with the
configured ignore list removed, equals the TOC entry's xattr map. -/
theorem canDedupFileWithHardLink_iff (file : FMBase) (uid gid mode : Int)
    (xs : List (String × String)) (hnd : (xs.map Prod.fst).Nodup) :
    canDedupFileWithHardLink file uid gid mode xs = true ↔
      (file.UID = uid ∧ file.GID = gid ∧ file.Mode = mode ∧
        mapsEqual file.Xattrs (xs.filter (fun p => decide (p.1 ∉ xattrsToIgnore))) = true) := by
  have hb : buildCandidateXattrs xs =
      xs.filter (fun p => decide (p.1 ∉ xattrsToIgnore)) := by
    have := buildCandidateXattrs_aux xs [] hnd (by simp)
    simpa [buildCandidateXattrs] using this
  rw [canDedupFileWithHardLink, canDedupMetadataWithHardLink]
  simp only [hb]
  split_ifs with h1 h2 h3 h4 <;>
    simp_all

theorem canDedupFileWithHardLink_iff_witness :
    canDedupFileWithHardLink
      { typ := .reg, Name := "n", Size := 0, Offset := 0, EndOffset := 0,
        ChunkSize := 0, Digest := "", UID := 1, GID := 2, Mode := 3,
        Xattrs := [("a", "v")] }
      1 2 3 [("a", "v"), ("security.selinux", "z")] = true := by
  exact (canDedupFileWithHardLink_iff _ 1 2 3 _ (by decide)).mpr (by decide)

theorem mergePass1_length_le (tail prevOrig : MissingPart) (rest : List MissingPart) :
    (mergePass1 tail prevOrig rest).length ≤ rest.length + 1 := by
  induction rest generalizing tail prevOrig with
  | nil => simp [mergePass1]
  | cons cur rest ih =>
    simp only [mergePass1]
    split
    · exact le_trans (ih _ _) (by simp)
    · simpa using Nat.succ_le_succ (ih cur cur)

theorem mergePass2_length_le (tv : Int) (tail prevOrig : MissingPart)
    (rest : List MissingPart) :
    (mergePass2 tv tail prevOrig rest).length ≤ rest.length + 1 := by
  induction rest generalizing tail prevOrig with
  | nil => simp [mergePass2]
  | cons cur rest ih =>
    simp only [mergePass2]
    split
    · simpa using Nat.succ_le_succ (ih cur cur)
    · exact le_trans (ih _ _) (by simp)

theorem mergePass2_length_lt (tv : Int) (tail prevOrig : MissingPart)
    (rest : List MissingPart)
    (h : ∃ pq ∈ List.zip (prevOrig :: rest) rest, getCost pq.1 pq.2 ≤ tv) :
    (mergePass2 tv tail prevOrig rest).length ≤ rest.length := by
  induction rest generalizing tail prevOrig with
  | nil => simp at h
  | cons cur rest ih =>
    obtain ⟨pq, hmem, hle⟩ := h
    simp only [List.zip_cons_cons, List.mem_cons] at hmem
    simp only [mergePass2]
    rcases hmem with h1 | h2
    · have : ¬ tv < getCost prevOrig cur := by
        subst h1; exact not_lt.mpr hle
      simp only [this, if_false]
      simpa using mergePass2_length_le tv (mergePart2 tail prevOrig cur) cur rest
    · split
      · simpa using Nat.succ_le_succ (ih cur cur ⟨pq, h2, hle⟩)
      · exact le_trans (mergePass2_length_le _ _ _ _) (by simp)

theorem mergePass2Top_length_lt (target : Nat) (m1 : List MissingPart)
    (h2 : 1 ≤ target) (h3 : target < m1.length) :
    (mergePass2Top target m1).length < m1.length := by
  match m1 with
  | [] => simp at h3
  | q :: qrest =>
    have hqrest : 0 < qrest.length := by
      by_contra h
      have : qrest = [] := List.length_eq_zero.mp (by omega)
      subst this; simp at h3; omega
    have hcostslen : (adjacencyCosts (q :: qrest)).length = qrest.length := by
      simp [adjacencyCosts]
    have hshrink : min ((q :: qrest).length - target) ((adjacencyCosts (q :: qrest)).length - 1)
        < ((adjacencyCosts (q :: qrest)).insertionSort (fun a b => a ≤ b)).length := by
      rw [(List.perm_insertionSort _ _).length_eq]
      omega
    have hmem : targetValueOf target (q :: qrest) ∈ adjacencyCosts (q :: qrest) := by
      have hget := List.get?_eq_get hshrink
      rw [targetValueOf, hget]
      exact (List.perm_insertionSort _ _).mem_iff.mp (List.get_mem _ _ _)
    have hpair : ∃ pq ∈ List.zip (q :: qrest) qrest,
        getCost pq.1 pq.2 ≤ targetValueOf target (q :: qrest) := by
      simp only [adjacencyCosts, List.mem_map, List.tail_cons] at hmem
      obtain ⟨pq, hpq, hval⟩ := hmem
      exact ⟨pq, hpq, hval.le⟩
    have := mergePass2_length_lt (targetValueOf target (q :: qrest)) q q qrest hpair
    simp only [mergePass2Top]
    simpa using Nat.lt_succ_of_le this

theorem mergeMissingChunks_length_lt (ps : List MissingPart) (target : Nat)
    (h2 : 1 ≤ target) (h3 : target < ps.length) :
    (mergeMissingChunks ps target).length < ps.length := by
  match ps with
  | [] => simp at h3
  | p :: rest =>
    simp only [mergeMissingChunks]
    split
    · rename_i hle
      calc (mergePass1 p p rest).length ≤ target := hle
        _ < (p :: rest).length := h3
    · rename_i hgt
      have h1 := mergePass1_length_le p p rest
      have := mergePass2Top_length_lt target (mergePass1 p p rest) h2 (by omega)
      simp only [List.length_cons]
      omega

theorem retrieveLoop_fuel (server : List ImageSourceChunk → Option BlobError)
    (fuel : Nat) (parts : List MissingPart) (h : parts.length < fuel) :
    retrieveLoop server fuel parts = retrieveMissingFiles server parts := by
  induction fuel using Nat.strong_induction_on generalizing parts with
  | _ fuel ih =>
    match fuel with
    | 0 => omega
    | fuel + 1 =>
      rw [retrieveMissingFiles]
      simp only [retrieveLoop]
      cases hs : server (calculateChunksToRequest parts) with
      | none => rfl
      | some e =>
        cases e with
        | other => rfl
        | badRequest =>
          simp only
          split
          · rfl
          · rename_i hge
            have hlt := mergeMissingChunks_length_lt parts (parts.length / 2)
              (by omega) (by omega)
            rw [ih fuel (by omega) _ (by omega),
              ih parts.length (by omega) _ (by omega)]

/-- C2: on a pair of adjacent missing parts, the same-file pass merges them
into one part exactly when the gap between them is zero, neither carries an
`OriginFile`, neither is a hole, each carries exactly one chunk, and both
chunks target the same file name (`sameFileCond`); the merged part keeps the
first part's range start and grows its source-chunk length by the second
part's length, and its single chunk carries the sums of the two chunks'
compressed and uncompressed sizes. -/
theorem mergeMissingChunks_sameFile_pair (p q : MissingPart) (target : Nat)
    (ht : 2 ≤ target) :
    (mergeMissingChunks [p, q] target = [mergePart1 p p q] ↔ sameFileCond p p q = true)
    ∧ (sameFileCond p p q = false → mergeMissingChunks [p, q] target = [p, q])
    ∧ (sameFileCond p p q = true →
        (mergePart1 p p q).SourceChunk.Length =
          u64 (p.SourceChunk.Length + q.SourceChunk.Length)
        ∧ (mergePart1 p p q).SourceChunk.Offset = p.SourceChunk.Offset
        ∧ (mergePart1 p p q).Hole = p.Hole
        ∧ (mergePart1 p p q).OriginFile = p.OriginFile
        ∧ ∀ pc qc, p.Chunks = [pc] → q.Chunks = [qc] →
            (mergePart1 p p q).Chunks =
              [{ pc with
                  CompressedSize := i64 (pc.CompressedSize + qc.CompressedSize),
                  UncompressedSize := i64 (pc.UncompressedSize + qc.UncompressedSize) }]) := by
  have hpass : mergePass1 p p [q] =
      if sameFileCond p p q then [mergePart1 p p q] else [p, q] := by
    by_cases hc : sameFileCond p p q <;> simp [mergePass1, hc]
  have hres : mergeMissingChunks [p, q] target =
      if sameFileCond p p q then [mergePart1 p p q] else [p, q] := by
    rw [mergeMissingChunks, hpass]
    by_cases hc : sameFileCond p p q <;> simp [hc] <;> omega
  refine ⟨?_, ?_, ?_⟩
  · rw [hres]
    by_cases hc : sameFileCond p p q = true
    · simp [hc]
    · have hc2 : sameFileCond p p q = false := by simpa using hc
      rw [hc2]
      simp only [Bool.false_eq_true, if_false]
      constructor
      · intro h
        have := congrArg List.length h
        simp at this
      · intro h
        exact h.elim
  · intro hc
    rw [hres, hc]
    simp
  · intro hc
    simp only [sameFileCond, Bool.and_eq_true, decide_eq_true_eq] at hc
    obtain ⟨⟨⟨⟨⟨⟨⟨hgap, _⟩, _⟩, _⟩, _⟩, _⟩, _⟩, _⟩ := hc
    have htu : toU64 (getGap p q) = 0 := by
      rw [hgap]; rfl
    refine ⟨?_, rfl, rfl, rfl, ?_⟩
    · rw [mergePart1]
      simp only [htu]
      rw [getGap] at hgap
      simp [Nat.add_zero]
    · intro pc qc hp hq
      rw [mergePart1]
      simp [hp, hq, updateHead]

theorem mergeMissingChunks_sameFile_pair_witness :
    sameFileCond (samplePart 0 5 false ["a"]) (samplePart 0 5 false ["a"])
      (samplePart 5 7 false ["a"]) = true
    ∧ mergeMissingChunks [samplePart 0 5 false ["a"], samplePart 5 7 false ["a"]] 1024 =
        [mergePart1 (samplePart 0 5 false ["a"]) (samplePart 0 5 false ["a"])
          (samplePart 5 7 false ["a"])] := by
  refine ⟨by decide, ?_⟩
  exact (mergeMissingChunks_sameFile_pair (samplePart 0 5 false ["a"])
    (samplePart 5 7 false ["a"]) 1024 (by omega)).1.mpr (by decide)

/-- C10: whenever the cost-driven pass absorbs a part into its predecessor,
the resulting part is a plain remote fetch: `Hole` is false, `OriginFile` is
nil, and the absorbed part's chunks are all appended (after an optional gap
chunk) to the absorbing part's chunk list. -/
theorem mergePass2_absorbs_remote (tv : Int) (tail prevOrig cur : MissingPart)
    (rest : List MissingPart) (h : getCost prevOrig cur ≤ tv) :
    mergePass2 tv tail prevOrig (cur :: rest) =
      mergePass2 tv (mergePart2 tail prevOrig cur) cur rest
    ∧ (mergePart2 tail prevOrig cur).Hole = false
    ∧ (mergePart2 tail prevOrig cur).OriginFile = none
    ∧ (mergePart2 tail prevOrig cur).Chunks =
        tail.Chunks ++
          (if 0 < getGap prevOrig cur then
            [{ Gap := getGap prevOrig cur, Hole := false, File := none,
               CompressedSize := 0, UncompressedSize := 0 }] else []) ++
          cur.Chunks
    ∧ cur.Chunks.IsSuffix (mergePart2 tail prevOrig cur).Chunks := by
  refine ⟨?_, rfl, rfl, rfl, ?_⟩
  · rw [mergePass2, if_neg (not_lt.mpr h)]
  · exact ⟨_, rfl⟩

theorem mergePass2_absorbs_remote_witness :
    getCost (samplePart 0 1 false ["a"]) (samplePart 1 1 false ["b"]) ≤ 0
    ∧ (mergePart2 (samplePart 0 1 false ["a"]) (samplePart 0 1 false ["a"])
        (samplePart 1 1 false ["b"])).Hole = false
    ∧ (mergePart2 (samplePart 0 1 false ["a"]) (samplePart 0 1 false ["a"])
        (samplePart 1 1 false ["b"])).OriginFile = none
    ∧ mergePass2 0 (samplePart 0 1 false ["a"]) (samplePart 0 1 false ["a"])
        [samplePart 1 1 false ["b"]] =
      mergePass2 0 (mergePart2 (samplePart 0 1 false ["a"]) (samplePart 0 1 false ["a"])
        (samplePart 1 1 false ["b"])) (samplePart 1 1 false ["b"]) [] := by
  have h := mergePass2_absorbs_remote 0 (samplePart 0 1 false ["a"])
    (samplePart 0 1 false ["a"]) (samplePart 1 1 false ["b"]) [] (by decide)
  exact ⟨by decide, h.2.1, h.2.2.1, h.1⟩

/-- C8 counterexample: the claim says every adjacency merged by the
cost-driven pass adds a synthetic gap chunk, but a zero-gap merge adds none.
Two adjacent hole parts with contiguous ranges survive the same-file pass
(holes are never merged there), the cost-driven pass with target 1 then
absorbs the second into the first, and the absorber's chunk list is exactly
the two original data chunks with no gap chunk (every chunk has `Gap = 0`). -/
theorem mergeMissingChunks_gapless_merge_counterexample :
    mergeMissingChunks [samplePart 0 1 true ["a"], samplePart 1 1 true ["b"]] 1 =
      [mergePart2 (samplePart 0 1 true ["a"]) (samplePart 0 1 true ["a"])
        (samplePart 1 1 true ["b"])]
    ∧ (mergePart2 (samplePart 0 1 true ["a"]) (samplePart 0 1 true ["a"])
        (samplePart 1 1 true ["b"])).Chunks = [sampleChunk "a", sampleChunk "b"]
    ∧ ((mergePart2 (samplePart 0 1 true ["a"]) (samplePart 0 1 true ["a"])
        (samplePart 1 1 true ["b"])).Chunks.all fun c => c.Gap = 0) = true := by
  refine ⟨by decide, by decide, by decide⟩

/-- C8 (amended): an adjacency merged by the cost-driven pass adds a
synthetic gap chunk, recording the gap bytes to discard, exactly when the gap
is positive; a merge across a zero (or negative, after wrap-around) gap
appends the absorbed chunks with no gap chunk. -/
theorem mergePass2_gap_chunk (tv : Int) (tail prevOrig cur : MissingPart)
    (rest : List MissingPart) (h : getCost prevOrig cur ≤ tv) :
    mergePass2 tv tail prevOrig (cur :: rest) =
      mergePass2 tv (mergePart2 tail prevOrig cur) cur rest
    ∧ (0 < getGap prevOrig cur →
        (mergePart2 tail prevOrig cur).Chunks =
          tail.Chunks ++
            { Gap := getGap prevOrig cur, Hole := false, File := none,
              CompressedSize := 0, UncompressedSize := 0 } :: cur.Chunks)
    ∧ (getGap prevOrig cur ≤ 0 →
        (mergePart2 tail prevOrig cur).Chunks = tail.Chunks ++ cur.Chunks) := by
  refine ⟨?_, ?_, ?_⟩
  · rw [mergePass2, if_neg (not_lt.mpr h)]
  · intro hpos
    rw [mergePart2]
    simp [hpos]
  · intro hnonpos
    rw [mergePart2]
    simp [not_lt.mpr hnonpos]

theorem mergePass2_gap_chunk_witness :
    getCost (samplePart 0 1 false ["a"]) (samplePart 3 1 false ["b"]) ≤ 2
    ∧ 0 < getGap (samplePart 0 1 false ["a"]) (samplePart 3 1 false ["b"])
    ∧ (mergePart2 (samplePart 0 1 false ["a"]) (samplePart 0 1 false ["a"])
        (samplePart 3 1 false ["b"])).Chunks =
      [sampleChunk "a",
       { Gap := 2, Hole := false, File := none, CompressedSize := 0, UncompressedSize := 0 },
       sampleChunk "b"] := by
  have h := mergePass2_gap_chunk 2 (samplePart 0 1 false ["a"])
    (samplePart 0 1 false ["a"]) (samplePart 3 1 false ["b"]) [] (by decide)
  refine ⟨by decide, by decide, ?_⟩
  have hg : getGap (samplePart 0 1 false ["a"]) (samplePart 3 1 false ["b"]) = 2 := by decide
  have := h.2.1 (by decide)
  rw [this, hg]
  decide

/-- C3: when the blob source rejects the request for the missing ranges as a
bad range request, `retrieveMissingFiles` merges the missing parts down to
half their current count and retries with the merged list; when fewer than 64
parts were being requested at the time of the rejection, it gives up and
returns the error instead. -/
theorem retrieveMissingFiles_badRange (server : List ImageSourceChunk → Option BlobError)
    (parts : List MissingPart)
    (h : server (calculateChunksToRequest parts) = some .badRequest) :
    (64 ≤ parts.length →
      retrieveMissingFiles server parts =
        retrieveMissingFiles server (mergeMissingChunks parts (parts.length / 2)))
    ∧ (parts.length < 64 →
        retrieveMissingFiles server parts = .failed .badRequest) := by
  constructor
  · intro hge
    rw [retrieveMissingFiles]
    rw [retrieveLoop, h]
    simp only [if_neg (by omega : ¬ parts.length < 64)]
    exact retrieveLoop_fuel server parts.length _
      (mergeMissingChunks_length_lt parts (parts.length / 2) (by omega) (by omega))
  · intro hlt
    rw [retrieveMissingFiles, retrieveLoop, h]
    simp [hlt]

theorem retrieveMissingFiles_badRange_witness :
    alwaysBadServer (calculateChunksToRequest [samplePart 0 1 false ["a"]]) =
      some .badRequest
    ∧ retrieveMissingFiles alwaysBadServer [samplePart 0 1 false ["a"]] =
        .failed .badRequest := by
  refine ⟨rfl, ?_⟩
  exact (retrieveMissingFiles_badRange alwaysBadServer [samplePart 0 1 false ["a"]]
    rfl).2 (by decide)

theorem getGap_left_congr (p p2 c : MissingPart) (h : end64 p = end64 p2) :
    getGap p c = getGap p2 c := by
  have h1 : u64 (p.SourceChunk.Offset + p.SourceChunk.Length) =
      u64 (p2.SourceChunk.Offset + p2.SourceChunk.Length) := h
  simp only [getGap, u64sub, h1]

theorem getGap_zero_iff (p c : MissingPart) :
    getGap p c = 0 ↔ u64 c.SourceChunk.Offset = end64 p := by
  simp only [getGap, end64, toI64, i64, u64sub, u64]
  omega

/-- The merge condition reads its three arguments only through `mergeProj`
(for the accumulated and the current part) and `end64` (for the original
predecessor). -/
theorem sameFileCond_congr (t t2 pr pr2 c c2 : MissingPart)
    (ht : mergeProj t = mergeProj t2) (hp : end64 pr = end64 pr2)
    (hc : mergeProj c = mergeProj c2) :
    sameFileCond t pr c = sameFileCond t2 pr2 c2 := by
  simp only [mergeProj, Prod.mk.injEq] at ht hc
  obtain ⟨hc1, hc2, hc3, hc4, hc5⟩ := hc
  obtain ⟨ht1, ht2, ht3, ht4, ht5⟩ := ht
  have hgap : getGap pr c = getGap pr2 c2 := by
    rw [getGap_left_congr pr pr2 c hp]
    simp only [getGap, u64sub, u64, hc1]
  simp only [sameFileCond, hgap, ht2, ht3, ht4, ht5, hc2, hc3, hc4, hc5]

theorem sameFileCond_of_cur_chunks (t pr c : MissingPart)
    (h : c.Chunks.length ≠ 1) : sameFileCond t pr c = false := by
  simp only [sameFileCond]
  have : decide (c.Chunks.length = 1) = false := by simpa using h
  simp [this]

theorem sameFileCond_of_tail_chunks (t pr c : MissingPart)
    (h : t.Chunks.length ≠ 1) : sameFileCond t pr c = false := by
  simp only [sameFileCond]
  have : decide (t.Chunks.length = 1) = false := by simpa using h
  simp [this]

theorem updateHead_length (f : α → α) (l : List α) :
    (updateHead f l).length = l.length := by
  cases l <;> simp [updateHead]

theorem mergePart1_proj (t p c : MissingPart) :
    mergeProj (mergePart1 t p c) = mergeProj t := by
  have hname : chunk0Name (mergePart1 t p c) = chunk0Name t := by
    cases h : t.Chunks with
    | nil => simp [chunk0Name, mergePart1, h, updateHead]
    | cons a l => simp [chunk0Name, mergePart1, h, updateHead]
  simp only [mergeProj, hname]
  simp [mergePart1, updateHead_length]

theorem end64_mergePart1 (t p c : MissingPart)
    (hgap : getGap p c = 0) (hend : end64 t = end64 p) :
    end64 (mergePart1 t p c) = end64 c := by
  have hoff : u64 c.SourceChunk.Offset = end64 p := (getGap_zero_iff p c).mp hgap
  have htu : toU64 (getGap p c) = 0 := by rw [hgap]; rfl
  simp only [mergePart1, htu] at *
  simp only [end64, u64] at *
  omega

theorem mergePass1_head (t p : MissingPart) (rest : List MissingPart) :
    ∃ h tl, mergePass1 t p rest = h :: tl ∧ mergeProj h = mergeProj t := by
  induction rest generalizing t p with
  | nil => exact ⟨t, [], rfl, rfl⟩
  | cons cur rest ih =>
    rw [mergePass1]
    split
    · obtain ⟨h, tl, heq, hproj⟩ := ih (mergePart1 t p cur) cur
      exact ⟨h, tl, heq, hproj.trans (mergePart1_proj t p cur)⟩
    · exact ⟨t, mergePass1 cur cur rest, rfl, rfl⟩

theorem noMergeableAdjacency_cons (a : MissingPart) (l : List MissingPart) :
    noMergeableAdjacency (a :: l) = true ↔
      ((∀ b, l.head? = some b → sameFileCond a a b = false) ∧
        noMergeableAdjacency l = true) := by
  cases l with
  | nil => simp [noMergeableAdjacency]
  | cons b r =>
    simp only [noMergeableAdjacency, Bool.and_eq_true, Bool.not_eq_true', List.head?_cons]
    constructor
    · rintro ⟨h1, h2⟩
      refine ⟨fun c hc => ?_, h2⟩
      cases hc
      exact h1
    · rintro ⟨h1, h2⟩
      exact ⟨h1 b rfl, h2⟩

/-- After the same-file pass, no adjacency satisfies the same-file merge
condition. -/
theorem mergePass1_chain (rest : List MissingPart) (t p : MissingPart)
    (hend : end64 t = end64 p) :
    noMergeableAdjacency (mergePass1 t p rest) = true := by
  induction rest generalizing t p with
  | nil => simp [mergePass1, noMergeableAdjacency]
  | cons cur rest ih =>
    rcases Bool.eq_false_or_eq_true (sameFileCond t p cur) with hc | hc
    · rw [mergePass1, if_pos hc]
      refine ih (mergePart1 t p cur) cur ?_
      have hgap : getGap p cur = 0 := by
        simp only [sameFileCond, Bool.and_eq_true, decide_eq_true_eq] at hc
        exact hc.1.1.1.1.1.1.1
      exact end64_mergePart1 t p cur hgap hend
    · rw [mergePass1, if_neg (by simp [hc])]
      rw [noMergeableAdjacency_cons]
      refine ⟨?_, ih cur cur rfl⟩
      intro y hy
      obtain ⟨h, tl, heq, hproj⟩ := mergePass1_head cur cur rest
      rw [heq] at hy
      simp only [List.head?_cons, Option.some.injEq] at hy
      subst hy
      rw [sameFileCond_congr t t t p h cur rfl hend hproj]
      exact hc

theorem mergePass1_wf (t p : MissingPart) (rest : List MissingPart)
    (ht : t.Chunks ≠ []) (hrest : ∀ x ∈ rest, x.Chunks ≠ []) :
    ∀ x ∈ mergePass1 t p rest, x.Chunks ≠ [] := by
  induction rest generalizing t p with
  | nil =>
    intro x hx
    simp only [mergePass1, List.mem_singleton] at hx
    subst hx; exact ht
  | cons cur rest ih =>
    intro x hx
    rw [mergePass1] at hx
    split at hx
    · refine ih (mergePart1 t p cur) cur ?_ (fun y hy => hrest y (by simp [hy])) x hx
      have : (mergePart1 t p cur).Chunks.length = t.Chunks.length := by
        simp [mergePart1, updateHead_length]
      intro hnil
      rw [hnil] at this
      exact ht (List.length_eq_zero.mp this.symm)
    · simp only [List.mem_cons] at hx
      rcases hx with hx | hx
      · subst hx; exact ht
      · exact ih cur cur (hrest cur (by simp)) (fun y hy => hrest y (by simp [hy])) x hx

theorem mergePart2_chunks_len (t p c : MissingPart)
    (ht : t.Chunks ≠ []) (hc : c.Chunks ≠ []) :
    2 ≤ (mergePart2 t p c).Chunks.length := by
  have h1 : 1 ≤ t.Chunks.length := List.length_pos.mpr ht
  have h2 : 1 ≤ c.Chunks.length := List.length_pos.mpr hc
  simp only [mergePart2, List.length_append]
  omega

theorem mergePass2_head (tv : Int) (t p : MissingPart) (rest : List MissingPart)
    (ht : t.Chunks ≠ []) (hrest : ∀ x ∈ rest, x.Chunks ≠ []) :
    ∃ h tl, mergePass2 tv t p rest = h :: tl ∧
      (h = t ∨ 2 ≤ h.Chunks.length) := by
  induction rest generalizing t p with
  | nil => exact ⟨t, [], rfl, Or.inl rfl⟩
  | cons cur rest ih =>
    rw [mergePass2]
    split
    · exact ⟨t, _, rfl, Or.inl rfl⟩
    · have hcur : cur.Chunks ≠ [] := hrest cur (by simp)
      have hm : (mergePart2 t p cur).Chunks ≠ [] := by
        have := mergePart2_chunks_len t p cur ht hcur
        intro hnil
        rw [hnil] at this
        simp at this
      obtain ⟨h, tl, heq, hd⟩ := ih (mergePart2 t p cur) cur hm
        (fun y hy => hrest y (by simp [hy]))
      refine ⟨h, tl, heq, ?_⟩
      rcases hd with hd | hd
      · subst hd; exact Or.inr (mergePart2_chunks_len t p cur ht hcur)
      · exact Or.inr hd

/-- The cost-driven pass preserves the absence of same-file-mergeable
adjacencies, for part lists whose parts all carry at least one chunk. -/
theorem mergePass2_chain (tv : Int) (rest : List MissingPart) (t p : MissingPart)
    (hrest : ∀ x ∈ rest, x.Chunks ≠ []) (ht : t.Chunks ≠ [])
    (hdisj : t = p ∨ 2 ≤ t.Chunks.length)
    (hchain : noMergeableAdjacency (p :: rest) = true) :
    noMergeableAdjacency (mergePass2 tv t p rest) = true := by
  induction rest generalizing t p with
  | nil => simp [mergePass2, noMergeableAdjacency]
  | cons cur rest ih =>
    have hcur : cur.Chunks ≠ [] := hrest cur (by simp)
    have hrest2 : ∀ x ∈ rest, x.Chunks ≠ [] := fun y hy => hrest y (by simp [hy])
    rw [noMergeableAdjacency_cons] at hchain
    have hpc : sameFileCond p p cur = false := hchain.1 cur (by simp)
    by_cases hcost : tv < getCost p cur
    · rw [mergePass2, if_pos hcost]
      rw [noMergeableAdjacency_cons]
      refine ⟨?_, ih cur cur hrest2 hcur (Or.inl rfl) hchain.2⟩
      intro y hy
      obtain ⟨h, tl, heq, hd⟩ := mergePass2_head tv cur cur rest hcur hrest2
      rw [heq] at hy
      simp only [List.head?_cons, Option.some.injEq] at hy
      subst hy
      rcases hd with hd | hd
      · rw [hd]
        rcases hdisj with hdisj | hdisj
        · rw [hdisj]; exact hpc
        · exact sameFileCond_of_tail_chunks t t cur (by omega)
      · exact sameFileCond_of_cur_chunks t t h (by omega)
    · rw [mergePass2, if_neg hcost]
      have hm : (mergePart2 t p cur).Chunks ≠ [] := by
        have := mergePart2_chunks_len t p cur ht hcur
        intro hnil
        rw [hnil] at this
        simp at this
      exact ih (mergePart2 t p cur) cur hrest2 hm
        (Or.inr (mergePart2_chunks_len t p cur ht hcur)) hchain.2

/-- C9 counterexample: the claimed invariant fails for parts that carry more
than one chunk.  Two adjacent parts, each with two chunks targeting file
`a`, contiguous ranges (exact zero gap), neither a hole nor
`OriginFile`-backed, are left adjacent by the planner (the same-file pass
merges only single-chunk parts, and the part count is within the target). -/
theorem mergeMissingChunks_adjacent_samefile_counterexample :
    mergeMissingChunks
        [samplePart 0 2 false ["a", "a"], samplePart 2 3 false ["a", "a"]] 1024 =
      [samplePart 0 2 false ["a", "a"], samplePart 2 3 false ["a", "a"]]
    ∧ getGap (samplePart 0 2 false ["a", "a"]) (samplePart 2 3 false ["a", "a"]) = 0
    ∧ (samplePart 0 2 false ["a", "a"]).Hole = false
    ∧ (samplePart 2 3 false ["a", "a"]).Hole = false
    ∧ (samplePart 0 2 false ["a", "a"]).OriginFile = none
    ∧ (samplePart 2 3 false ["a", "a"]).OriginFile = none
    ∧ ((samplePart 0 2 false ["a", "a"]).Chunks.all fun c =>
        c.File.any fun f => f.Name = "a") = true
    ∧ ((samplePart 2 3 false ["a", "a"]).Chunks.all fun c =>
        c.File.any fun f => f.Name = "a") = true := by
  refine ⟨by decide, by decide, rfl, rfl, rfl, rfl, by decide, by decide⟩

/-- C9 (amended): for every missing-part list whose parts all carry at least
one chunk (as every part built by the planner does), no two adjacent parts of
the coalesced output satisfy the same-file merge condition: both single-chunk,
targeting the same file, with an exact zero gap, neither a hole nor
`OriginFile`-backed.  Adjacent same-file zero-gap parts can remain when one
of them carries more than one chunk. -/
theorem mergeMissingChunks_chain (parts : List MissingPart) (target : Nat)
    (hwf : ∀ x ∈ parts, x.Chunks ≠ []) :
    noMergeableAdjacency (mergeMissingChunks parts target) = true := by
  match parts with
  | [] => simp [mergeMissingChunks, noMergeableAdjacency]
  | p :: rest =>
    have hchain1 := mergePass1_chain rest p p rfl
    have hwf1 : ∀ x ∈ mergePass1 p p rest, x.Chunks ≠ [] :=
      mergePass1_wf p p rest (hwf p (by simp)) (fun y hy => hwf y (by simp [hy]))
    rw [mergeMissingChunks]
    split
    · exact hchain1
    · obtain ⟨h, tl, heq, _⟩ := mergePass1_head p p rest
      rw [heq] at hchain1 hwf1 ⊢
      rw [mergePass2Top]
      exact mergePass2_chain _ tl h h (fun y hy => hwf1 y (by simp [hy]))
        (hwf1 h (by simp)) (Or.inl rfl) hchain1

theorem mergeMissingChunks_chain_witness :
    (∀ x ∈ [samplePart 0 2 false ["a", "a"], samplePart 2 3 false ["a", "a"]],
      x.Chunks ≠ [])
    ∧ noMergeableAdjacency
        (mergeMissingChunks
          [samplePart 0 2 false ["a", "a"], samplePart 2 3 false ["a", "a"]] 1024) = true := by
  refine ⟨?_, ?_⟩
  · intro x hx
    simp only [List.mem_cons, List.mem_singleton] at hx
    rcases hx with hx | hx | hx <;> first | (subst hx; simp [samplePart]) | cases hx
  · refine mergeMissingChunks_chain _ 1024 ?_
    intro x hx
    simp only [List.mem_cons, List.mem_singleton] at hx
    rcases hx with hx | hx | hx <;> first | (subst hx; simp [samplePart]) | cases hx

theorem chunkPairsOk_cons (ft : CompressedFileType) (a : FileMetadata)
    (l : List FileMetadata) :
    chunkPairsOk ft (a :: l) = true ↔
      ((∀ b, l.head? = some b → b.typ = .chunk → mustSkipFile ft b = false →
          (a.typ = .reg ∨ a.typ = .chunk)) ∧ chunkPairsOk ft l = true) := by
  cases l with
  | nil => simp [chunkPairsOk]
  | cons b r =>
    simp only [chunkPairsOk, Bool.and_eq_true, Bool.or_eq_true, Bool.not_eq_true',
      Bool.and_eq_false_iff, Bool.not_eq_false', decide_eq_true_eq, decide_eq_false_iff_not,
      List.head?_cons]
    constructor
    · rintro ⟨h1, h2⟩
      refine ⟨fun c hc ht hs => ?_, h2⟩
      cases hc
      rcases h1 with h1 | h1
      · rcases h1 with h1 | h1
        · exact absurd ht h1
        · rw [h1] at hs; cases hs
      · exact h1
    · rintro ⟨h1, h2⟩
      refine ⟨?_, h2⟩
      by_cases ht : b.typ = .chunk
      · by_cases hs : mustSkipFile ft b = false
        · exact Or.inr (h1 b rfl ht hs)
        · left; right
          revert hs
          cases mustSkipFile ft b <;> simp
      · exact Or.inl (Or.inl ht)

theorem chunkPlacementOk_split (ft : CompressedFileType) (l : List FileMetadata) :
    chunkPlacementOk ft l = true ↔
      ((∀ h, l.head? = some h → h.typ = .chunk → mustSkipFile ft h = false → False) ∧
        chunkPairsOk ft l = true) := by
  cases l with
  | nil => simp [chunkPlacementOk, chunkPairsOk]
  | cons a r =>
    simp only [chunkPlacementOk, Bool.and_eq_true, Bool.not_eq_true',
      Bool.and_eq_false_iff, Bool.not_eq_false', decide_eq_true_eq,
      decide_eq_false_iff_not, List.head?_cons]
    constructor
    · rintro ⟨h1, h2⟩
      refine ⟨fun c hc ht hs => ?_, h2⟩
      cases hc
      rcases h1 with h1 | h1
      · exact h1 ht
      · rw [h1] at hs; cases hs
    · rintro ⟨h1, h2⟩
      refine ⟨?_, h2⟩
      by_cases ht : a.typ = .chunk
      · by_cases hs : mustSkipFile ft a = false
        · exact absurd (h1 a rfl ht hs) (fun h => h)
        · right
          revert hs
          cases mustSkipFile ft a <;> simp
      · exact Or.inl ht

theorem takeWhile_drop_decomp (p : FileMetadata → Bool) (l : List FileMetadata) :
    l.takeWhile p ++ l.drop (l.takeWhile p).length = l := by
  induction l with
  | nil => simp
  | cons a l ih =>
    by_cases h : p a
    · simp [List.takeWhile_cons, h, ih]
    · simp [List.takeWhile_cons, h]

theorem chunkPairsOk_run (ft : CompressedFileType) (run rest2 : List FileMetadata)
    (prev : FileMetadata)
    (hrun : ∀ c ∈ run, c.typ = .chunk)
    (hprev : prev.typ = .reg ∨ prev.typ = .chunk)
    (hrest2 : chunkPairsOk ft rest2 = true) :
    chunkPairsOk ft (prev :: (run ++ rest2)) = true := by
  induction run generalizing prev with
  | nil =>
    rw [List.nil_append, chunkPairsOk_cons]
    exact ⟨fun b _ _ _ => hprev, hrest2⟩
  | cons c run ih =>
    rw [List.cons_append, chunkPairsOk_cons]
    exact ⟨fun b _ _ _ => hprev, ih c (fun x hx => hrun x (by simp [hx]))
      (Or.inr (hrun c (by simp)))⟩

theorem mergeTop_ok_placement (ft : CompressedFileType) :
    ∀ n (entries : List FileMetadata), entries.length ≤ n →
      ∀ r, mergeTop ft entries = .ok r → chunkPlacementOk ft entries = true := by
  intro n
  induction n with
  | zero =>
    intro entries hlen r h
    have : entries = [] := List.length_eq_zero.mp (by omega)
    subst this
    simp [chunkPlacementOk, chunkPairsOk]
  | succ n ih =>
    intro entries hlen r h
    match entries with
    | [] => simp [chunkPlacementOk, chunkPairsOk]
    | e :: rest =>
      simp only [List.length_cons] at hlen
      rw [mergeTop] at h
      by_cases hskip : mustSkipFile ft e = true
      · rw [if_pos hskip] at h
        have hrest := ih rest (by omega) r h
        rw [chunkPlacementOk_split] at hrest ⊢
        refine ⟨?_, ?_⟩
        · intro c hc ht hs
          simp only [List.head?_cons, Option.some.injEq] at hc
          subst hc
          rw [hs] at hskip
          cases hskip
        · rw [chunkPairsOk_cons]
          exact ⟨fun b hb ht hs => (hrest.1 b hb ht hs).elim, hrest.2⟩
      · rw [if_neg hskip] at h
        have hskipf : mustSkipFile ft e = false := by
          revert hskip; cases mustSkipFile ft e <;> simp
        by_cases hchunk : e.typ = .chunk
        · rw [if_pos hchunk] at h
          cases h
        · rw [if_neg hchunk] at h
          rw [chunkPlacementOk_split]
          refine ⟨?_, ?_⟩
          · intro c hc ht hs
            simp only [List.head?_cons, Option.some.injEq] at hc
            subst hc
            exact hchunk ht
          · by_cases hreg : e.typ = .reg
            · rw [if_pos hreg] at h
              dsimp only at h
              rcases hm : mergeTop ft (rest.drop (rest.takeWhile (fun c => c.typ = .chunk)).length)
                with m | r2
              · rw [hm] at h; cases h
              · rw [hm] at h
                have hlen2 : (rest.drop
                    (rest.takeWhile (fun c => c.typ = .chunk)).length).length ≤ n := by
                  have := List.length_drop
                    (rest.takeWhile (fun c => c.typ = .chunk)).length rest
                  omega
                have hrest2 := ih _ hlen2 _ hm
                rw [chunkPlacementOk_split] at hrest2
                have hdecomp := takeWhile_drop_decomp (fun c => c.typ = .chunk) rest
                calc chunkPairsOk ft (e :: rest)
                    = chunkPairsOk ft (e :: ((rest.takeWhile (fun c => c.typ = .chunk)) ++
                        rest.drop (rest.takeWhile (fun c => c.typ = .chunk)).length)) := by
                      rw [hdecomp]
                  _ = true := by
                      apply chunkPairsOk_run ft _ _ e ?_ (Or.inl hreg) hrest2.2
                      intro c hc
                      have := List.mem_takeWhile_imp hc
                      simpa using this
            · rw [if_neg hreg] at h
              rcases hm : mergeTop ft rest with m | r2
              · rw [hm] at h; cases h
              · have hrest := ih rest (by omega) _ hm
                rw [chunkPlacementOk_split] at hrest
                rw [chunkPairsOk_cons]
                exact ⟨fun b hb ht hs => (hrest.1 b hb ht hs).elim, hrest.2⟩

theorem typ_withChunks (e : FileMetadata) (cs : List FileMetadata) :
    (e.withChunks cs).typ = e.typ := rfl

theorem typ_withEndOffset (e : FileMetadata) (v : Int) :
    (e.withEndOffset v).typ = e.typ := rfl

theorem name_withChunks (e : FileMetadata) (cs : List FileMetadata) :
    (e.withChunks cs).Name = e.Name := rfl

theorem name_withEndOffset (e : FileMetadata) (v : Int) :
    (e.withEndOffset v).Name = e.Name := rfl

theorem size_withChunks (e : FileMetadata) (cs : List FileMetadata) :
    (e.withChunks cs).Size = e.Size := rfl

theorem size_withEndOffset (e : FileMetadata) (v : Int) :
    (e.withEndOffset v).Size = e.Size := rfl

theorem chunks_withChunks (e : FileMetadata) (cs : List FileMetadata) :
    (e.withChunks cs).Chunks = cs := rfl

theorem chunks_withEndOffset (e : FileMetadata) (v : Int) :
    (e.withEndOffset v).Chunks = e.Chunks := rfl

theorem chunkFix_shape (v : Int) (cs : List FileMetadata) :
    (chunkFix v cs).map chunkShape = cs.map chunkShape := by
  induction cs with
  | nil => simp [chunkFix]
  | cons c cs ih =>
    cases cs with
    | nil => simp [chunkFix, chunkShape, FileMetadata.withEndAndSize, FileMetadata.typ,
        FileMetadata.Name, FileMetadata.base]
    | cons c2 cs2 =>
      rw [chunkFix]
      simp only [List.map_cons] at ih ⊢
      refine congrArg₂ List.cons ?_ ih
      simp [chunkShape, FileMetadata.withEndAndSize, FileMetadata.typ,
        FileMetadata.Name, FileMetadata.base]

theorem entryShape_withEndOffset (e : FileMetadata) (v : Int) :
    entryShape (e.withEndOffset v) = entryShape e := by
  simp [entryShape, FileMetadata.withEndOffset, FileMetadata.typ, FileMetadata.Name,
    FileMetadata.Size, FileMetadata.Chunks, FileMetadata.base]

theorem entryShape_withChunksShape (e : FileMetadata) (cs : List FileMetadata)
    (h : cs.map chunkShape = e.Chunks.map chunkShape) :
    entryShape (e.withChunks cs) = entryShape e := by
  simp [entryShape, FileMetadata.withChunks, FileMetadata.typ, FileMetadata.Name,
    FileMetadata.Size, FileMetadata.Chunks, FileMetadata.base, h]

theorem fixAux_shape (toc : Int) (l : List FileMetadata) :
    ((fixAux toc l).1).map entryShape = l.map entryShape := by
  induction l with
  | nil => simp [fixAux]
  | cons e rest ih =>
    rw [fixAux]
    simp only [List.map_cons]
    refine congrArg₂ List.cons ?_ ih
    set e1 := if e.EndOffset = 0 then e.withEndOffset (fixAux toc rest).2 else e with he1
    have hshape1 : entryShape e1 = entryShape e := by
      rw [he1]
      split
      · exact entryShape_withEndOffset e _
      · rfl
    rw [entryShape_withChunksShape e1 _ (by rw [chunkFix_shape])]
    exact hshape1

theorem mergeTop_ok_shape (ft : CompressedFileType) :
    ∀ n (entries : List FileMetadata), entries.length ≤ n →
      ∀ l t, mergeTop ft entries = .ok (l, t) →
        ∀ e ∈ l, e.typ ≠ .chunk ∧
          (e.typ = .reg → e.Chunks.head?.map (fun c => c.Name) = some e.Name ∧
            ∀ c ∈ e.Chunks.tail, c.typ = .chunk) := by
  intro n
  induction n with
  | zero =>
    intro entries hlen l t h x hx
    have : entries = [] := List.length_eq_zero.mp (by omega)
    subst this
    rw [mergeTop] at h
    cases h
    cases hx
  | succ n ih =>
    intro entries hlen l t h x hx
    match entries with
    | [] =>
      rw [mergeTop] at h
      cases h
      cases hx
    | e :: rest =>
      simp only [List.length_cons] at hlen
      rw [mergeTop] at h
      by_cases hskip : mustSkipFile ft e = true
      · rw [if_pos hskip] at h
        exact ih rest (by omega) l t h x hx
      · rw [if_neg hskip] at h
        by_cases hchunk : e.typ = .chunk
        · rw [if_pos hchunk] at h; cases h
        · rw [if_neg hchunk] at h
          by_cases hreg : e.typ = .reg
          · rw [if_pos hreg] at h
            dsimp only at h
            rcases hm : mergeTop ft
                (rest.drop (rest.takeWhile (fun c => c.typ = .chunk)).length) with m | r2
            · rw [hm] at h; cases h
            · rw [hm] at h
              obtain ⟨l2, t2⟩ := r2
              simp only [Except.ok.injEq, Prod.mk.injEq] at h
              rw [← h.1] at hx
              rcases List.mem_cons.mp hx with hx | hx
              · subst hx
                refine ⟨by rw [typ_withEndOffset, typ_withChunks]; exact fun hc => hchunk hc,
                  fun _ => ⟨?_, ?_⟩⟩
                · rw [chunks_withEndOffset, chunks_withChunks, name_withEndOffset,
                    name_withChunks]
                  simp
                · rw [chunks_withEndOffset, chunks_withChunks]
                  intro c hc
                  simp only [List.tail_cons] at hc
                  have := List.mem_takeWhile_imp hc
                  simpa using this
              · have hlen2 : (rest.drop
                    (rest.takeWhile (fun c => c.typ = .chunk)).length).length ≤ n := by
                  have := List.length_drop
                    (rest.takeWhile (fun c => c.typ = .chunk)).length rest
                  omega
                exact ih _ hlen2 l2 t2 hm x hx
          · rw [if_neg hreg] at h
            rcases hm : mergeTop ft rest with m | r2
            · rw [hm] at h; cases h
            · rw [hm] at h
              obtain ⟨l2, t2⟩ := r2
              simp only [Except.ok.injEq, Prod.mk.injEq] at h
              rw [← h.1] at hx
              rcases List.mem_cons.mp hx with hx | hx
              · subst hx
                exact ⟨hchunk, fun hr => absurd hr hreg⟩
              · exact ih rest (by omega) l2 t2 hm x hx

theorem shape_transfer (A B : List FileMetadata)
    (h : A.map entryShape = B.map entryShape) :
    ∀ e ∈ A, ∃ b ∈ B, entryShape e = entryShape b := by
  intro e he
  have hmem : entryShape e ∈ A.map entryShape := List.mem_map_of_mem _ he
  rw [h] at hmem
  obtain ⟨b, hb, heq⟩ := List.mem_map.mp hmem
  exact ⟨b, hb, heq.symm⟩

theorem entryShape_fields (a b : FileMetadata) (h : entryShape a = entryShape b) :
    a.typ = b.typ ∧ a.Name = b.Name ∧ a.Size = b.Size ∧
      a.Chunks.map chunkShape = b.Chunks.map chunkShape := by
  simp only [entryShape, Prod.mk.injEq] at h
  exact ⟨h.1, h.2.1, h.2.2.1, h.2.2.2⟩

/-- C5: the entry merger fails whenever the list violates the
chunk-placement discipline — some non-skipped chunk-continuation entry is
not immediately preceded by a regular file or by a chunk of the same run —
and every entry of a successful merge result is not of chunk type; each
regular file's chunk list begins with (a copy of) the file itself and
continues with the absorbed chunk-continuation entries. -/
theorem mergeTocEntries_chunk_rules (ft : CompressedFileType) (toc : Int)
    (entries : List FileMetadata) :
    (chunkPlacementOk ft entries = false →
      ∃ msg, mergeTocEntries ft toc entries = .error msg)
    ∧ (∀ l t, mergeTocEntries ft toc entries = .ok (l, t) →
        ∀ e ∈ l, e.typ ≠ .chunk ∧
          (e.typ = .reg → e.Chunks.head?.map (fun c => c.Name) = some e.Name ∧
            ∀ c ∈ e.Chunks.tail, c.typ = .chunk)) := by
  constructor
  · intro hf
    rcases hm : mergeTop ft entries with msg | r
    · exact ⟨msg, by rw [mergeTocEntries, hm]⟩
    · have := mergeTop_ok_placement ft entries.length entries (le_refl _) r hm
      rw [this] at hf
      cases hf
  · intro l t h e he
    rw [mergeTocEntries] at h
    rcases hm : mergeTop ft entries with msg | ⟨l0, t0⟩
    · rw [hm] at h; cases h
    · rw [hm] at h
      simp only [Except.ok.injEq, Prod.mk.injEq] at h
      rw [← h.1] at he
      obtain ⟨b, hb, hshape⟩ := shape_transfer _ l0 (fixAux_shape toc l0) e he
      obtain ⟨htyp, hname, -, hchunks⟩ := entryShape_fields _ _ hshape
      have hbprops := mergeTop_ok_shape ft entries.length entries (le_refl _)
        l0 t0 hm b hb
      refine ⟨by rw [htyp]; exact hbprops.1, fun hr => ?_⟩
      have hbreg := hbprops.2 (by rw [← htyp]; exact hr)
      constructor
      · have hhead : (e.Chunks.map chunkShape).head? = (b.Chunks.map chunkShape).head? := by
          rw [hchunks]
        simp only [List.head?_map] at hhead
        have : e.Chunks.head?.map (fun c => c.Name) =
            (e.Chunks.head?.map chunkShape).map Prod.snd := by
          cases e.Chunks.head? <;> simp [chunkShape]
        rw [this, hhead]
        have : (b.Chunks.head?.map chunkShape).map Prod.snd =
            b.Chunks.head?.map (fun c => c.Name) := by
          cases b.Chunks.head? <;> simp [chunkShape]
        rw [this, hbreg.1, hname]
      · intro c hc
        have htail : (e.Chunks.tail).map chunkShape = (b.Chunks.tail).map chunkShape := by
          have := congrArg List.tail hchunks
          simpa [← List.map_tail] using this
        have hmem : chunkShape c ∈ (b.Chunks.tail).map chunkShape := by
          rw [← htail]
          exact List.mem_map_of_mem _ hc
        obtain ⟨c2, hc2, hceq⟩ := List.mem_map.mp hmem
        have : c.typ = c2.typ := by
          simp only [chunkShape, Prod.mk.injEq] at hceq
          exact hceq.1.symm
        rw [this]
        exact hbreg.2 c2 hc2

theorem mergeTocEntries_chunk_rules_witness :
    chunkPlacementOk .zstdChunked [exDir, exC] = false
    ∧ (∃ msg, mergeTocEntries .zstdChunked 200 [exDir, exC] = .error msg) :=
  ⟨by decide, (mergeTocEntries_chunk_rules .zstdChunked 200 [exDir, exC]).1 (by decide)⟩

theorem offset_withEndOffset (e : FileMetadata) (v : Int) :
    (e.withEndOffset v).Offset = e.Offset := rfl

theorem offset_withChunks (e : FileMetadata) (cs : List FileMetadata) :
    (e.withChunks cs).Offset = e.Offset := rfl

theorem endOffset_withEndOffset (e : FileMetadata) (v : Int) :
    (e.withEndOffset v).EndOffset = v := rfl

theorem endOffset_withChunks (e : FileMetadata) (cs : List FileMetadata) :
    (e.withChunks cs).EndOffset = e.EndOffset := rfl

theorem withEndOffset_withEndOffset (e : FileMetadata) (v w : Int) :
    (e.withEndOffset v).withEndOffset w = e.withEndOffset w := rfl

theorem withEndOffset_self (e : FileMetadata) : e.withEndOffset e.EndOffset = e := by
  cases e
  rfl

theorem withChunks_nil_self (e : FileMetadata) (h : e.Chunks = []) :
    e.withChunks [] = e := by
  cases e with
  | mk b c =>
    simp only [FileMetadata.Chunks] at h
    rw [h]
    rfl

theorem mustSkipFile_name_congr (ft : CompressedFileType) (a b : FileMetadata)
    (h : a.Name = b.Name) : mustSkipFile ft a = mustSkipFile ft b := by
  simp [mustSkipFile, h]

theorem mergeTop_ok_noskip (ft : CompressedFileType) :
    ∀ n (entries : List FileMetadata), entries.length ≤ n →
      ∀ l t, mergeTop ft entries = .ok (l, t) →
        ∀ e ∈ l, mustSkipFile ft e = false := by
  intro n
  induction n with
  | zero =>
    intro entries hlen l t h x hx
    have : entries = [] := List.length_eq_zero.mp (by omega)
    subst this
    rw [mergeTop] at h
    cases h
    cases hx
  | succ n ih =>
    intro entries hlen l t h x hx
    match entries with
    | [] =>
      rw [mergeTop] at h
      cases h
      cases hx
    | e :: rest =>
      simp only [List.length_cons] at hlen
      rw [mergeTop] at h
      by_cases hskip : mustSkipFile ft e = true
      · rw [if_pos hskip] at h
        exact ih rest (by omega) l t h x hx
      · rw [if_neg hskip] at h
        have hskipf : mustSkipFile ft e = false := by
          revert hskip; cases mustSkipFile ft e <;> simp
        by_cases hchunk : e.typ = .chunk
        · rw [if_pos hchunk] at h; cases h
        · rw [if_neg hchunk] at h
          by_cases hreg : e.typ = .reg
          · rw [if_pos hreg] at h
            dsimp only at h
            rcases hm : mergeTop ft
                (rest.drop (rest.takeWhile (fun c => c.typ = .chunk)).length) with m | r2
            · rw [hm] at h; cases h
            · rw [hm] at h
              obtain ⟨l2, t2⟩ := r2
              simp only [Except.ok.injEq, Prod.mk.injEq] at h
              rw [← h.1] at hx
              rcases List.mem_cons.mp hx with hx | hx
              · subst hx
                rw [mustSkipFile_name_congr ft _ e (by
                  rw [name_withEndOffset, name_withChunks])]
                exact hskipf
              · have hlen2 : (rest.drop
                    (rest.takeWhile (fun c => c.typ = .chunk)).length).length ≤ n := by
                  have := List.length_drop
                    (rest.takeWhile (fun c => c.typ = .chunk)).length rest
                  omega
                exact ih _ hlen2 l2 t2 hm x hx
          · rw [if_neg hreg] at h
            rcases hm : mergeTop ft rest with m | r2
            · rw [hm] at h; cases h
            · rw [hm] at h
              obtain ⟨l2, t2⟩ := r2
              simp only [Except.ok.injEq, Prod.mk.injEq] at h
              rw [← h.1] at hx
              rcases List.mem_cons.mp hx with hx | hx
              · subst hx; exact hskipf
              · exact ih rest (by omega) l2 t2 hm x hx

theorem mergeTop_ok_total (ft : CompressedFileType) :
    ∀ n (entries : List FileMetadata), entries.length ≤ n →
      ∀ l t, mergeTop ft entries = .ok (l, t) → t = sizeTotal l := by
  intro n
  induction n with
  | zero =>
    intro entries hlen l t h
    have : entries = [] := List.length_eq_zero.mp (by omega)
    subst this
    rw [mergeTop] at h
    cases h
    rfl
  | succ n ih =>
    intro entries hlen l t h
    match entries with
    | [] =>
      rw [mergeTop] at h
      cases h
      rfl
    | e :: rest =>
      simp only [List.length_cons] at hlen
      rw [mergeTop] at h
      by_cases hskip : mustSkipFile ft e = true
      · rw [if_pos hskip] at h
        exact ih rest (by omega) l t h
      · rw [if_neg hskip] at h
        by_cases hchunk : e.typ = .chunk
        · rw [if_pos hchunk] at h; cases h
        · rw [if_neg hchunk] at h
          by_cases hreg : e.typ = .reg
          · rw [if_pos hreg] at h
            dsimp only at h
            rcases hm : mergeTop ft
                (rest.drop (rest.takeWhile (fun c => c.typ = .chunk)).length) with m | r2
            · rw [hm] at h; cases h
            · rw [hm] at h
              obtain ⟨l2, t2⟩ := r2
              simp only [Except.ok.injEq, Prod.mk.injEq] at h
              have hlen2 : (rest.drop
                  (rest.takeWhile (fun c => c.typ = .chunk)).length).length ≤ n := by
                have := List.length_drop
                  (rest.takeWhile (fun c => c.typ = .chunk)).length rest
                omega
              have ht2 := ih _ hlen2 l2 t2 hm
              rw [← h.1, ← h.2, ht2]
              simp [sizeTotal, size_withEndOffset, size_withChunks]
          · rw [if_neg hreg] at h
            rcases hm : mergeTop ft rest with m | r2
            · rw [hm] at h; cases h
            · rw [hm] at h
              obtain ⟨l2, t2⟩ := r2
              simp only [Except.ok.injEq, Prod.mk.injEq] at h
              have ht2 := ih rest (by omega) l2 t2 hm
              rw [← h.1, ← h.2, ht2]
              simp [sizeTotal]

theorem sizeTotal_sizes_congr (A : List FileMetadata) :
    ∀ B : List FileMetadata, A.map FileMetadata.Size = B.map FileMetadata.Size →
      sizeTotal A = sizeTotal B := by
  induction A with
  | nil =>
    intro B h
    have : B = [] := by
      cases B with
      | nil => rfl
      | cons b B => simp at h
    subst this; rfl
  | cons a A ih =>
    intro B h
    cases B with
    | nil => simp at h
    | cons b B =>
      simp only [List.map_cons, List.cons.injEq] at h
      rw [sizeTotal, sizeTotal, h.1, ih B h.2]

theorem fixAux_sizes (toc : Int) (l : List FileMetadata) :
    ((fixAux toc l).1).map FileMetadata.Size = l.map FileMetadata.Size := by
  have h := congrArg (List.map fun s : EntryType × String × Int × List (EntryType × String) =>
    s.2.2.1) (fixAux_shape toc l)
  simpa [List.map_map, Function.comp, entryShape] using h

theorem takeWhile_nil_of_nochunk (rest : List FileMetadata)
    (h : ∀ x ∈ rest, x.typ ≠ .chunk) :
    rest.takeWhile (fun c => c.typ = .chunk) = [] := by
  cases rest with
  | nil => rfl
  | cons a l =>
    rw [List.takeWhile_cons]
    simp [h a (by simp)]

theorem mergeTop_clean (ft : CompressedFileType) (l : List FileMetadata)
    (h : ∀ e ∈ l, mustSkipFile ft e = false ∧ e.typ ≠ .chunk) :
    mergeTop ft l = .ok (l.map regRechunk, sizeTotal l) := by
  induction l with
  | nil => rw [mergeTop]; rfl
  | cons e rest ih =>
    have he := h e (by simp)
    have hrest : ∀ x ∈ rest, mustSkipFile ft x = false ∧ x.typ ≠ .chunk :=
      fun x hx => h x (by simp [hx])
    rw [mergeTop, if_neg (by simp [he.1]), if_neg he.2]
    by_cases hreg : e.typ = .reg
    · rw [if_pos hreg]
      dsimp only
      have htw : rest.takeWhile (fun c => c.typ = .chunk) = [] :=
        takeWhile_nil_of_nochunk rest (fun x hx => (hrest x hx).2)
      rw [htw]
      simp only [List.length_nil, List.drop_zero, ih hrest]
      rw [sizeTotal, List.map_cons]
      have hm : ((e.withChunks [e]).withEndOffset
          ((([e] : List FileMetadata).getLast?).getD e).EndOffset) = e.withChunks [e] :=
        withEndOffset_self (e.withChunks [e])
      rw [hm, regRechunk, if_pos hreg]
    · rw [if_neg hreg]
      rw [ih hrest]
      rw [sizeTotal, List.map_cons]
      rw [regRechunk, if_neg hreg]

theorem stripChunks_endOffset (e : FileMetadata) : (stripChunks e).EndOffset = e.EndOffset := rfl

theorem stripChunks_offset (e : FileMetadata) : (stripChunks e).Offset = e.Offset := rfl

theorem stripChunks_chunks (e : FileMetadata) : (stripChunks e).Chunks = [] := rfl

theorem strip_regRechunk (e : FileMetadata) :
    stripChunks (regRechunk e) = stripChunks e := by
  rw [regRechunk]
  split
  · rfl
  · rfl

/-- The backward pass commutes with forgetting the chunk lists: its
entry-level work depends only on offsets and end offsets. -/
theorem fixAux_strip (toc : Int) (l : List FileMetadata) :
    ((fixAux toc l).1).map stripChunks = (fixAux toc (l.map stripChunks)).1 ∧
    (fixAux toc l).2 = (fixAux toc (l.map stripChunks)).2 := by
  induction l with
  | nil => exact ⟨rfl, rfl⟩
  | cons e rest ih =>
    rw [List.map_cons, fixAux, fixAux]
    dsimp only
    constructor
    · rw [List.map_cons]
      refine congrArg₂ List.cons ?_ ih.1
      by_cases h0 : e.EndOffset = 0
      · rw [if_pos h0, if_pos (by rw [stripChunks_endOffset]; exact h0), ← ih.2]
        rfl
      · rw [if_neg h0, if_neg (by rw [stripChunks_endOffset]; exact h0)]
        rfl
    · rw [stripChunks_offset, ← ih.2]

theorem fixAux_cons_nilchunks (toc : Int) (e : FileMetadata)
    (rest : List FileMetadata) (he : e.Chunks = []) :
    fixAux toc (e :: rest) =
      ((if e.EndOffset = 0 then e.withEndOffset (fixAux toc rest).2 else e) ::
          (fixAux toc rest).1,
        if e.Offset ≠ 0 then e.Offset else (fixAux toc rest).2) := by
  rw [fixAux]
  have hch : (if e.EndOffset = 0 then e.withEndOffset (fixAux toc rest).2 else e).Chunks
      = [] := by
    split
    · rw [chunks_withEndOffset]; exact he
    · exact he
  rw [hch]
  rw [show ∀ v : Int, chunkFix v [] = [] from fun v => rfl]
  rw [withChunks_nil_self _ hch]

theorem fixAux_idem_nilchunks (toc : Int) (l : List FileMetadata)
    (h : ∀ e ∈ l, e.Chunks = []) :
    fixAux toc ((fixAux toc l).1) = fixAux toc l := by
  induction l with
  | nil => rfl
  | cons e rest ih =>
    have he := h e (by simp)
    have hrest : ∀ x ∈ rest, x.Chunks = [] := fun x hx => h x (by simp [hx])
    have hstep := fixAux_cons_nilchunks toc e rest he
    rw [hstep]
    have he1ch : (if e.EndOffset = 0 then e.withEndOffset (fixAux toc rest).2 else e).Chunks
        = [] := by
      split
      · rw [chunks_withEndOffset]; exact he
      · exact he
    rw [fixAux_cons_nilchunks toc _ ((fixAux toc rest).1) he1ch, ih hrest]
    have hoff : (if e.EndOffset = 0 then e.withEndOffset (fixAux toc rest).2 else e).Offset
        = e.Offset := by
      split
      · rw [offset_withEndOffset]
      · rfl
    have hend : (if (if e.EndOffset = 0 then e.withEndOffset (fixAux toc rest).2 else e).EndOffset = 0
        then (if e.EndOffset = 0 then e.withEndOffset (fixAux toc rest).2 else e).withEndOffset
          (fixAux toc rest).2
        else (if e.EndOffset = 0 then e.withEndOffset (fixAux toc rest).2 else e)) =
        (if e.EndOffset = 0 then e.withEndOffset (fixAux toc rest).2 else e) := by
      by_cases h00 : e.EndOffset = 0
      · rw [if_pos h00]
        by_cases hr : (fixAux toc rest).2 = 0
        · rw [if_pos (by rw [endOffset_withEndOffset]; exact hr)]
          rw [withEndOffset_withEndOffset]
        · rw [if_neg (by rw [endOffset_withEndOffset]; exact hr)]
      · rw [if_neg h00, if_neg h00]
    rw [hend, hoff]

/-- C6 (amended): re-merging an already-merged entry list succeeds and yields
the same total uncompressed size, and the same entries up to their chunk
lists; each regular file's chunk list is however rebuilt as the single chunk
`[entry]`, so the merged list itself is preserved exactly only when no
regular-file entry is present (see the counterexample). -/
theorem mergeTocEntries_remerge (ft : CompressedFileType) (toc : Int)
    (entries l1 : List FileMetadata) (t1 : Int)
    (h : mergeTocEntries ft toc entries = .ok (l1, t1)) :
    ∃ l2, mergeTocEntries ft toc l1 = .ok (l2, t1) ∧
      l2.map stripChunks = l1.map stripChunks := by
  rw [mergeTocEntries] at h
  rcases hm : mergeTop ft entries with msg | r0
  · rw [hm] at h; cases h
  · obtain ⟨l0, t0⟩ := r0
    rw [hm] at h
    simp only [Except.ok.injEq, Prod.mk.injEq] at h
    obtain ⟨hl1, ht1⟩ := h
    have hclean : ∀ e ∈ l1, mustSkipFile ft e = false ∧ e.typ ≠ .chunk := by
      intro e he
      rw [← hl1] at he
      obtain ⟨b, hb, hshape⟩ := shape_transfer _ l0 (fixAux_shape toc l0) e he
      obtain ⟨htyp, hname, -, -⟩ := entryShape_fields _ _ hshape
      constructor
      · rw [mustSkipFile_name_congr ft e b hname]
        exact mergeTop_ok_noskip ft entries.length entries (le_refl _) l0 t0 hm b hb
      · rw [htyp]
        exact (mergeTop_ok_shape ft entries.length entries (le_refl _) l0 t0 hm b hb).1
    have hmt := mergeTop_clean ft l1 hclean
    have htot : sizeTotal l1 = t1 := by
      rw [← ht1, mergeTop_ok_total ft entries.length entries (le_refl _) l0 t0 hm]
      apply sizeTotal_sizes_congr
      rw [← hl1]
      exact fixAux_sizes toc l0
    refine ⟨(fixAux toc (l1.map regRechunk)).1, ?_, ?_⟩
    · rw [mergeTocEntries, hmt, htot]
    · have hc1 : (l1.map regRechunk).map stripChunks = l1.map stripChunks := by
        rw [List.map_map]
        exact congrArg (fun f => List.map f l1) (funext strip_regRechunk)
      have h2 : l1.map stripChunks = (fixAux toc (l0.map stripChunks)).1 := by
        rw [← hl1]
        exact (fixAux_strip toc l0).1
      calc ((fixAux toc (l1.map regRechunk)).1).map stripChunks
          = (fixAux toc ((l1.map regRechunk).map stripChunks)).1 := (fixAux_strip toc _).1
        _ = (fixAux toc (l1.map stripChunks)).1 := by rw [hc1]
        _ = l1.map stripChunks := by
            rw [h2]
            exact congrArg Prod.fst (fixAux_idem_nilchunks toc (l0.map stripChunks) (by
              intro x hx
              obtain ⟨y, hy, hxy⟩ := List.mem_map.mp hx
              rw [← hxy]
              rfl))

/-- C6 counterexample: entry merging is not idempotent on lists containing a
regular file.  Merging `[exR, exC]` (a regular file with one continuation
chunk) gives the file a two-element chunk list; merging the merged list again
rebuilds the chunk list as the single self-copy chunk, so the second result
differs from the first (while the totals agree). -/
theorem mergeTocEntries_not_idempotent_counterexample :
    isOkE (mergeTocEntries .zstdChunked 200 [exR, exC]) = true
    ∧ headChunksCount (mergedListOf (mergeTocEntries .zstdChunked 200 [exR, exC])) = some 2
    ∧ headChunksCount (mergedListOf (mergeTocEntries .zstdChunked 200
        (mergedListOf (mergeTocEntries .zstdChunked 200 [exR, exC])))) = some 1
    ∧ mergedListOf (mergeTocEntries .zstdChunked 200
        (mergedListOf (mergeTocEntries .zstdChunked 200 [exR, exC])))
      ≠ mergedListOf (mergeTocEntries .zstdChunked 200 [exR, exC]) := by
  have h1 : isOkE (mergeTocEntries .zstdChunked 200 [exR, exC]) = true := by
    simp [mergeTocEntries, mergeTop, mustSkipFile, exR, exC, exBase, FileMetadata.typ,
      FileMetadata.base, isOkE]
  have h2 : headChunksCount (mergedListOf (mergeTocEntries .zstdChunked 200 [exR, exC])) =
      some 2 := by
    simp [mergeTocEntries, mergeTop, mustSkipFile, exR, exC, exBase, FileMetadata.typ,
      FileMetadata.base, mergedListOf, headChunksCount, fixAux, chunkFix,
      FileMetadata.Chunks, FileMetadata.withChunks, FileMetadata.withEndOffset,
      FileMetadata.withEndAndSize, FileMetadata.EndOffset, FileMetadata.Offset,
      FileMetadata.Name, i64]
  have h3 : headChunksCount (mergedListOf (mergeTocEntries .zstdChunked 200
      (mergedListOf (mergeTocEntries .zstdChunked 200 [exR, exC])))) = some 1 := by
    simp [mergeTocEntries, mergeTop, mustSkipFile, exR, exC, exBase, FileMetadata.typ,
      FileMetadata.base, mergedListOf, headChunksCount, fixAux, chunkFix,
      FileMetadata.Chunks, FileMetadata.withChunks, FileMetadata.withEndOffset,
      FileMetadata.withEndAndSize, FileMetadata.EndOffset, FileMetadata.Offset,
      FileMetadata.Name, i64]
  refine ⟨h1, h2, h3, fun h => ?_⟩
  rw [h, h2] at h3
  cases h3

theorem mergeTocEntries_remerge_witness :
    isOkE (mergeTocEntries .zstdChunked 200
      (mergedListOf (mergeTocEntries .zstdChunked 200 [exR, exC]))) = true
    ∧ mergedTotalOf (mergeTocEntries .zstdChunked 200
        (mergedListOf (mergeTocEntries .zstdChunked 200 [exR, exC]))) =
      mergedTotalOf (mergeTocEntries .zstdChunked 200 [exR, exC]) := by
  rcases hm : mergeTocEntries .zstdChunked 200 [exR, exC] with msg | r1
  · have h1 : isOkE (mergeTocEntries .zstdChunked 200 [exR, exC]) = true := by
      simp [mergeTocEntries, mergeTop, mustSkipFile, exR, exC, exBase, FileMetadata.typ,
        FileMetadata.base, isOkE]
    rw [hm] at h1
    cases h1
  · obtain ⟨l1, t1⟩ := r1
    obtain ⟨l2, h2, -⟩ := mergeTocEntries_remerge .zstdChunked 200 [exR, exC] l1 t1 hm
    simp [mergedListOf, mergedTotalOf, isOkE, h2]

end ChunkedStorage
